import Mathlib

/-
  Verification of the userspace-RCU interval red-black tree, Judy-array
  trie and range layer (urcu-rbtree.c, rcuja.c, rcuja-range.c) against
  their natural-language specification.

  Conventions of the shallow embedding:
  - interval endpoints (opaque pointers ordered by the injected
    comparator in C) are modelled as Int; comp(a,b) < 0 is a < b;
  - machine words (tagged child references) are Nat reduced mod 2^64;
  - NULL pointers are modelled as 0 or as Option.none, as noted at
    each definition;
  - every definition is translated from the C source, file and line
    numbers given in the comment above it.
-/

namespace Urcu

/-! ## Interval red-black tree: data model (urcu-rbtree.h / urcu-rbtree.c)

A node carries begin, end (half-open interval), max_end (interval
augmentation), a color and two children; a distinguished nil node
stands for the absent child.  Here the tree below a node is the
inductive value; the source field end is spelled endk because end is
reserved in Lean. -/

inductive Color where
  | red : Color
  | black : Color
deriving DecidableEq, Repr

inductive ITree where
  | nil : ITree
  | node (left : ITree) (begink endk max_end : Int) (color : Color) (right : ITree) : ITree
deriving DecidableEq, Repr

namespace ITree

/-- Stored max_end field of a node; the source never reads the field of
the nil node, so the nil value 0 is arbitrary. -/
def maxEndF : ITree → Int
  | .nil => 0
  | .node _ _ _ me _ _ => me

/-- Entries (begin, end) of all nodes, in symmetric order. -/
def entries : ITree → List (Int × Int)
  | .nil => []
  | .node l b e _ _ r => entries l ++ (b, e) :: entries r

end ITree

open ITree

/-- calculate_node_max_end, urcu-rbtree.c:2081-2095 (same in the older
variant at lines 369-384): start from the own end, then raise to the
right child max_end when that child is non-nil and compares greater,
then to the left child max_end likewise. -/
def calculate_node_max_end : ITree → Int
  | .nil => 0
  | .node l _ e _ _ r =>
      let m := e
      let m := match r with
        | .nil => m
        | .node _ _ _ rme _ _ => if m < rme then rme else m
      match l with
      | .nil => m
      | .node _ _ _ lme _ _ => if m < lme then lme else m

/-- The max_end augmentation invariant: for every non-nil node the
stored max_end equals calculate_node_max_end of the node (spec section
3.1 and 8.1). -/
def maxEndOk : ITree → Bool
  | .nil => true
  | .node l b e me c r =>
      (me == calculate_node_max_end (.node l b e me c r)) && maxEndOk l && maxEndOk r

/-- Predicate transformer over all begin keys of a tree. -/
def allBegins (p : Int → Bool) : ITree → Bool
  | .nil => true
  | .node l b _ _ _ r => p b && allBegins p l && allBegins p r

/-- Binary-search-tree invariant on begin keys as established by
rcu_rbtree_insert (urcu-rbtree.c:2743-2749): strictly smaller begins go
left, greater or equal begins go right. -/
def bstOk : ITree → Bool
  | .nil => true
  | .node l b _ _ _ r =>
      allBegins (fun x => decide (x < b)) l &&
      allBegins (fun x => decide (b ≤ x)) r &&
      bstOk l && bstOk r

/-- All intervals are non-empty: begin compares less than end. -/
def nonEmptyOk : ITree → Bool
  | .nil => true
  | .node l b e _ _ r => decide (b < e) && nonEmptyOk l && nonEmptyOk r

/-- rcu_rbtree_search, urcu-rbtree.c:2159-2195.  Iterative descent: if
the left child is non-nil and its max_end compares greater than the
point, continue left; else if begin <= point < end report the current
node; else if point compares greater than begin continue right; else
return nil.  Returning the hit node is modelled as returning its
(begin, end) pair; nil is none. -/
def rcu_rbtree_search : ITree → Int → Option (Int × Int)
  | .nil, _ => none
  | .node l b e _ _ r, point =>
      if l ≠ ITree.nil ∧ maxEndF l > point then rcu_rbtree_search l point
      else if b ≤ point ∧ point < e then some (b, e)
      else if point > b then rcu_rbtree_search r point
      else none

/-! ### Helper lemmas about the augmentation -/

theorem calc_ge_end (l r : ITree) (b e me : Int) (c : Color) :
    e ≤ calculate_node_max_end (.node l b e me c r) := by
  cases l <;> cases r <;> simp [calculate_node_max_end] <;> split_ifs <;> omega

theorem calc_ge_left (l r : ITree) (b e me : Int) (c : Color) (h : l ≠ ITree.nil) :
    maxEndF l ≤ calculate_node_max_end (.node l b e me c r) := by
  cases l with
  | nil => exact absurd rfl h
  | node ll lb le lme lc lr =>
      cases r <;> simp [calculate_node_max_end, maxEndF] <;> split_ifs <;> omega

theorem calc_ge_right (l r : ITree) (b e me : Int) (c : Color) (h : r ≠ ITree.nil) :
    maxEndF r ≤ calculate_node_max_end (.node l b e me c r) := by
  cases r with
  | nil => exact absurd rfl h
  | node rl rb re rme rc rr =>
      cases l <;> simp [calculate_node_max_end, maxEndF] <;> split_ifs <;> omega

theorem calc_cases (l r : ITree) (b e me : Int) (c : Color) :
    calculate_node_max_end (.node l b e me c r) = e ∨
    (l ≠ ITree.nil ∧ calculate_node_max_end (.node l b e me c r) = maxEndF l) ∨
    (r ≠ ITree.nil ∧ calculate_node_max_end (.node l b e me c r) = maxEndF r) := by
  cases l with
  | nil =>
      cases r with
      | nil => left; simp [calculate_node_max_end]
      | node rl rb re rme rc rr =>
          simp only [calculate_node_max_end, maxEndF]
          by_cases h : e < rme
          · right; right; exact ⟨by simp, by simp [h]⟩
          · left; simp [h]
  | node ll lb le lme lc lr =>
      cases r with
      | nil =>
          simp only [calculate_node_max_end, maxEndF]
          by_cases h : e < lme
          · right; left; exact ⟨by simp, by simp [h]⟩
          · left; simp [h]
      | node rl rb re rme rc rr =>
          simp only [calculate_node_max_end, maxEndF]
          by_cases h1 : e < rme
          · by_cases h2 : rme < lme
            · right; left; exact ⟨by simp, by simp [h1, h2]⟩
            · right; right; exact ⟨by simp, by simp [h1, h2]⟩
          · by_cases h2 : e < lme
            · right; left; exact ⟨by simp, by simp [h1, h2]⟩
            · left; simp [h1, h2]

/-- Under the augmentation invariant, every end in the tree is bounded
by the stored max_end of the root. -/
theorem end_le_maxEnd (t : ITree) (hme : maxEndOk t = true) :
    ∀ q ∈ entries t, q.2 ≤ maxEndF t := by
  induction t with
  | nil => simp [entries]
  | node l b e me c r ihl ihr =>
      simp only [maxEndOk, Bool.and_eq_true, beq_iff_eq] at hme
      obtain ⟨⟨heq, hl⟩, hr⟩ := hme
      intro q hq
      simp only [entries, List.mem_append, List.mem_cons] at hq
      rcases hq with hq | hq | hq
      · have h1 : q.2 ≤ maxEndF l := ihl hl q hq
        have hlnil : l ≠ ITree.nil := by
          intro h; subst h; simp [entries] at hq
        have h2 := calc_ge_left l r b e me c hlnil
        simp only [maxEndF]
        omega
      · subst hq
        have := calc_ge_end l r b e me c
        simp only [maxEndF]
        omega
      · have h1 : q.2 ≤ maxEndF r := ihr hr q hq
        have hrnil : r ≠ ITree.nil := by
          intro h; subst h; simp [entries] at hq
        have h2 := calc_ge_right l r b e me c hrnil
        simp only [maxEndF]
        omega

/-- Under the augmentation invariant, the stored max_end of a non-nil
tree is attained by some entry. -/
theorem maxEnd_attained (t : ITree) (hme : maxEndOk t = true) (hnil : t ≠ ITree.nil) :
    ∃ q ∈ entries t, q.2 = maxEndF t := by
  induction t with
  | nil => exact absurd rfl hnil
  | node l b e me c r ihl ihr =>
      simp only [maxEndOk, Bool.and_eq_true, beq_iff_eq] at hme
      obtain ⟨⟨heq, hl⟩, hr⟩ := hme
      rcases calc_cases l r b e me c with hc | ⟨hln, hc⟩ | ⟨hrn, hc⟩
      · exact ⟨(b, e), by simp [entries], by simp [maxEndF]; omega⟩
      · obtain ⟨q, hqm, hqe⟩ := ihl hl hln
        exact ⟨q, by simp [entries, hqm], by simp [maxEndF]; omega⟩
      · obtain ⟨q, hqm, hqe⟩ := ihr hr hrn
        exact ⟨q, by simp [entries, hqm], by simp [maxEndF]; omega⟩

theorem allBegins_spec (p : Int → Bool) (t : ITree) (h : allBegins p t = true) :
    ∀ q ∈ entries t, p q.1 = true := by
  induction t with
  | nil => simp [entries]
  | node l b e me c r ihl ihr =>
      simp only [allBegins, Bool.and_eq_true] at h
      intro q hq
      simp only [entries, List.mem_append, List.mem_cons] at hq
      rcases hq with hq | hq | hq
      · exact ihl h.1.2 q hq
      · subst hq; exact h.1.1
      · exact ihr h.2 q hq

/-- Search soundness: a non-nil result is a node of the tree whose
half-open interval contains the point. -/
theorem search_sound (t : ITree) (point : Int) :
    ∀ b e, rcu_rbtree_search t point = some (b, e) →
      (b, e) ∈ entries t ∧ b ≤ point ∧ point < e := by
  induction t with
  | nil => intro b e h; simp [rcu_rbtree_search] at h
  | node l b0 e0 me c r ihl ihr =>
      intro b e h
      simp only [rcu_rbtree_search] at h
      split_ifs at h with h1 h2 h3
      · obtain ⟨hm, hc⟩ := ihl b e h
        exact ⟨by simp [entries, hm], hc⟩
      · have h' : b0 = b ∧ e0 = e := by simpa using h
        obtain ⟨hb, he⟩ := h'
        subst hb; subst he
        exact ⟨by simp [entries], h2⟩
      · obtain ⟨hm, hc⟩ := ihr b e h
        exact ⟨by simp [entries, hm], hc⟩

/-- Search completeness under the steady-state invariants: when some
node of the tree contains the point, the pruned descent reaches a
containing node. -/
theorem search_complete (t : ITree) (point : Int)
    (hme : maxEndOk t = true) (hbst : bstOk t = true) (hne : nonEmptyOk t = true)
    (hex : ∃ q ∈ entries t, q.1 ≤ point ∧ point < q.2) :
    (rcu_rbtree_search t point).isSome := by
  induction t with
  | nil => obtain ⟨q, hq, _⟩ := hex; simp [entries] at hq
  | node l b0 e0 me c r ihl ihr =>
      simp only [maxEndOk, Bool.and_eq_true, beq_iff_eq] at hme
      obtain ⟨⟨hmeq, hmel⟩, hmer⟩ := hme
      simp only [bstOk, Bool.and_eq_true] at hbst
      obtain ⟨⟨⟨hbl, hbr⟩, hbstl⟩, hbstr⟩ := hbst
      simp only [nonEmptyOk, Bool.and_eq_true, decide_eq_true_eq] at hne
      obtain ⟨⟨hne0, hnel⟩, hner⟩ := hne
      obtain ⟨q, hqm, hq1, hq2⟩ := hex
      simp only [rcu_rbtree_search]
      split_ifs with h1 h2 h3
      · -- descend left: some containing node must be in the left subtree
        obtain ⟨hlnil, hlm⟩ := h1
        apply ihl hmel hbstl hnel
        by_contra hnone
        push_neg at hnone
        -- the left subtree attains max_end > point but contains no hit,
        -- so that attaining entry begins after point, hence b0 > point
        obtain ⟨qL, hqLm, hqLe⟩ := maxEnd_attained l hmel hlnil
        have hqLb : point < qL.1 := by
          rcases lt_or_le point qL.1 with h | h
          · exact h
          · have := hnone qL hqLm h
            omega
        have hqLlt : qL.1 < b0 := by
          have := allBegins_spec _ l hbl qL hqLm
          simpa using this
        -- but the assumed hit q is then nowhere: left has none, and
        -- the root and right subtree begin after the point
        simp only [entries, List.mem_append, List.mem_cons] at hqm
        rcases hqm with hql | hq0 | hqr
        · have := hnone q hql hq1
          omega
        · have : q.1 = b0 := by rw [hq0]
          omega
        · have := allBegins_spec _ r hbr q hqr
          simp only [decide_eq_true_eq] at this
          omega
      · simp
      · -- descend right: the hit cannot be in the left subtree (all its
        -- ends are at most the point) nor at the root
        apply ihr hmer hbstr hner
        simp only [entries, List.mem_append, List.mem_cons] at hqm
        rcases hqm with hql | hq0 | hqr
        · exfalso
          have hlnil : l ≠ ITree.nil := by
            intro h; subst h; simp [entries] at hql
          have hlm : maxEndF l ≤ point := by
            rcases not_and_or.mp h1 with h | h
            · exact absurd hlnil h
            · omega
          have := end_le_maxEnd l hmel q hql
          omega
        · subst hq0
          simp only at hq1 hq2
          exact absurd (And.intro hq1 hq2) h2
        · exact ⟨q, hqr, hq1, hq2⟩
      · -- fail branch: point < b0, so no node can contain the point
        exfalso
        have hplt : point < b0 := by
          rcases lt_or_le point b0 with h | h
          · exact h
          · have : b0 = point := by omega
            exact absurd ⟨by omega, by omega⟩ h2
        simp only [entries, List.mem_append, List.mem_cons] at hqm
        rcases hqm with hql | hq0 | hqr
        · have hlnil : l ≠ ITree.nil := by
            intro h; subst h; simp [entries] at hql
          have hlm : maxEndF l ≤ point := by
            rcases not_and_or.mp h1 with h | h
            · exact absurd hlnil h
            · omega
          have := end_le_maxEnd l hmel q hql
          omega
        · have : q.1 = b0 := by rw [hq0]
          omega
        · have := allBegins_spec _ r hbr q hqr
          simp only [decide_eq_true_eq] at this
          omega

/-- C1: the point search of the interval red-black tree descends with
max_end pruning exactly as rcu_rbtree_search (urcu-rbtree.c:2159-2195)
does; in a steady-state tree (max_end augmentation, BST order on begin,
non-empty intervals) it returns a node whose half-open interval
contains the point whenever the tree contains a containing node, and
returns nil exactly when no node contains the point. -/
theorem rcu_rbtree_search_correct (t : ITree) (point : Int)
    (hme : maxEndOk t = true) (hbst : bstOk t = true) (hne : nonEmptyOk t = true) :
    (∀ b e, rcu_rbtree_search t point = some (b, e) →
        (b, e) ∈ entries t ∧ b ≤ point ∧ point < e) ∧
    ((∃ q ∈ entries t, q.1 ≤ point ∧ point < q.2) → (rcu_rbtree_search t point).isSome) ∧
    ((∀ q ∈ entries t, ¬(q.1 ≤ point ∧ point < q.2)) → rcu_rbtree_search t point = none) := by
  refine ⟨search_sound t point, search_complete t point hme hbst hne, ?_⟩
  intro hnone
  cases h : rcu_rbtree_search t point with
  | none => rfl
  | some q =>
      obtain ⟨hm, hc⟩ := search_sound t point q.1 q.2 (by rw [← h])
      exact absurd hc (by simpa using hnone (q.1, q.2) hm)

/-! ## Max-end propagation (populate_node_end)

The updater modifies a node on a fresh, not yet published copy and
walks the ancestor chain towards the root.  The chain is modelled as a
zipper: the focus is the modified subtree, and each Frame holds the
fields of one ancestor, the untouched sibling subtree, and (for the
older code variant) the superseded child subtree that the ancestor
still references until the new branch is published. -/

inductive Pos where
  | IS_LEFT : Pos
  | IS_RIGHT : Pos
deriving DecidableEq, Repr

structure Frame where
  pos : Pos
  begink : Int
  endk : Int
  max_end : Int
  color : Color
  sib : ITree
  oldChild : ITree
deriving DecidableEq, Repr

/-- Rebuild the ancestor node from a frame, a focus child and a stored
max_end value m. -/
def plugFrameMe (f : Frame) (t : ITree) (m : Int) : ITree :=
  match f.pos with
  | .IS_LEFT => .node t f.begink f.endk m f.color f.sib
  | .IS_RIGHT => .node f.sib f.begink f.endk m f.color t

/-- Rebuild the ancestor node with its stored max_end unchanged. -/
def plugFrame (f : Frame) (t : ITree) : ITree :=
  plugFrameMe f t f.max_end

/-- Rebuild the whole tree from the zipper. -/
def plug : List Frame → ITree → ITree
  | [], t => t
  | f :: rest, t => plug rest (plugFrame f t)

/-- Recomputed max_end of a frame node whose focus-side child is a
non-nil node with stored max_end v; calculate_node_max_end reads only
the stored max_end of a non-nil child, so the child is represented by
a stub node carrying v. -/
def calcFrameMe (f : Frame) (v : Int) : Int :=
  calculate_node_max_end (plugFrameMe f (.node .nil 0 0 v .red .nil) f.max_end)

/-- Steady-state consistency of the ancestor chain before the update:
every frame stored its max_end as the recomputed value from the
superseded child (whose stored max_end the chain threads upward,
starting from childMe) and from the untouched sibling, and every
sibling satisfies the augmentation invariant. -/
def framesOk : List Frame → Int → Bool
  | [], _ => true
  | f :: rest, childMe =>
      (f.max_end == calcFrameMe f childMe) && maxEndOk f.sib && framesOk rest f.max_end

/-- populate_node_end, newest variant, urcu-rbtree.c:2354-2421, with
copy_parents = 1 and stop = NULL as called from insert and transplant.
Each iteration first links the updated child into the (copied) current
node, then recomputes its max_end; when the recomputed value equals the
stored one the new branch is published into the untouched parent and
the walk stops, otherwise the stored value is replaced and the walk
moves to the parent; after the root the new root is published. -/
def populate_node_end (t : ITree) (path : List Frame) : ITree :=
  match t, path with
  | .nil, path => plug path .nil
  | .node l b e me c r, path =>
      let m := calculate_node_max_end (.node l b e me c r)
      if m = me then plug path (.node l b e me c r)
      else
        match path with
        | [] => .node l b e m c r
        | f :: rest => populate_node_end (plugFrame f (.node l b e m c r)) rest

/-- Ancestor walk of the older variant, urcu-rbtree.c:389-457: the
recomputation at an ancestor happens before the fresh branch is linked
into it, so it reads the superseded child (frame field oldChild), both
for the stop test and for the stored value it writes. -/
def populate_up_old : ITree → List Frame → ITree
  | t, [] => t
  | t, f :: rest =>
      let m := calculate_node_max_end (plugFrame f f.oldChild)
      if m = f.max_end then plug (f :: rest) t
      else populate_up_old (plugFrameMe f t m) rest

/-- populate_node_end, older variant, urcu-rbtree.c:389-457 (first
iteration operates on the freshly wired focus, the rest on ancestors
that still reference the old child). -/
def populate_node_end_old (t : ITree) (path : List Frame) : ITree :=
  match t with
  | .nil => plug path .nil
  | .node l b e me c r =>
      let m := calculate_node_max_end (.node l b e me c r)
      if m = me then plug path (.node l b e me c r)
      else populate_up_old (.node l b e m c r) path

/-- left_rotate, RCU variant, urcu-rbtree.c:2444-2523: x and its right
child y are copied, y_left moves under x, then max_end of the x copy
and of the y copy are recomputed in that order. -/
def left_rotate : ITree → ITree
  | .node a xb xe xme xc (.node yl yb ye yme yc yr) =>
      let x2me := calculate_node_max_end (.node a xb xe xme xc yl)
      let x2 := ITree.node a xb xe x2me xc yl
      let y2me := calculate_node_max_end (.node x2 yb ye yme yc yr)
      .node x2 yb ye y2me yc yr
  | t => t

/-- right_rotate, RCU variant, urcu-rbtree.c:2535-2614, mirror of
left_rotate. -/
def right_rotate : ITree → ITree
  | .node (.node yl yb ye yme yc yr) xb xe xme xc a =>
      let x2me := calculate_node_max_end (.node yr xb xe xme xc a)
      let x2 := ITree.node yr xb xe x2me xc a
      let y2me := calculate_node_max_end (.node yl yb ye yme yc x2)
      .node yl yb ye y2me yc x2
  | t => t

/-! ### Lemmas for the propagation proof -/

/-- calculate_node_max_end never reads the stored max_end of the node
itself. -/
theorem calc_me_irrel (l r : ITree) (b e me me2 : Int) (c c2 : Color) :
    calculate_node_max_end (.node l b e me c r) =
    calculate_node_max_end (.node l b e me2 c2 r) := by
  cases l <;> cases r <;> rfl

/-- Plugging a non-nil child into a frame and recomputing sees only the
stored max_end of that child. -/
theorem calc_plug (f : Frame) (t : ITree) (m : Int) (ht : t ≠ ITree.nil) :
    calculate_node_max_end (plugFrameMe f t m) = calcFrameMe f (maxEndF t) := by
  cases t with
  | nil => exact absurd rfl ht
  | node tl tb te tme tc tr =>
      cases hp : f.pos <;>
        simp only [calcFrameMe, plugFrameMe, hp, maxEndF] <;>
        cases f.sib <;> rfl

theorem maxEndOk_node (l r : ITree) (b e me : Int) (c : Color) :
    maxEndOk (.node l b e me c r) = true ↔
      (me = calculate_node_max_end (.node l b e me c r) ∧
       maxEndOk l = true ∧ maxEndOk r = true) := by
  rw [show maxEndOk (.node l b e me c r) =
      ((me == calculate_node_max_end (.node l b e me c r)) && maxEndOk l && maxEndOk r)
    from rfl]
  simp [and_assoc]

theorem plugFrame_ne_nil (f : Frame) (t : ITree) (m : Int) :
    plugFrameMe f t m ≠ ITree.nil := by
  cases f.pos <;> simp [plugFrameMe] <;> split <;> simp

theorem maxEndF_plugFrameMe (f : Frame) (t : ITree) (m : Int) :
    maxEndF (plugFrameMe f t m) = m := by
  cases hp : f.pos <;> simp [plugFrameMe, hp, maxEndF]

/-- A subtree satisfying the augmentation invariant plugged into a
consistent ancestor chain yields a tree satisfying the invariant. -/
theorem maxEndOk_plug (path : List Frame) (t : ITree)
    (ht : maxEndOk t = true) (hne : t ≠ ITree.nil)
    (hp : framesOk path (maxEndF t) = true) :
    maxEndOk (plug path t) = true := by
  induction path generalizing t with
  | nil => exact ht
  | cons f rest ih =>
      simp only [framesOk, Bool.and_eq_true, beq_iff_eq] at hp
      obtain ⟨⟨hfe, hsib⟩, hrest⟩ := hp
      simp only [plug]
      apply ih (plugFrame f t)
      · have hcalc : calculate_node_max_end (plugFrameMe f t f.max_end) =
            calcFrameMe f (maxEndF t) := calc_plug f t f.max_end hne
        cases hpos : f.pos with
        | IS_LEFT =>
            simp only [plugFrame, plugFrameMe, hpos] at hcalc ⊢
            rw [maxEndOk_node]
            exact ⟨by rw [hcalc]; exact hfe, ht, hsib⟩
        | IS_RIGHT =>
            simp only [plugFrame, plugFrameMe, hpos] at hcalc ⊢
            rw [maxEndOk_node]
            exact ⟨by rw [hcalc]; exact hfe, hsib, ht⟩
      · exact plugFrame_ne_nil f t f.max_end
      · rw [plugFrame, maxEndF_plugFrameMe]
        exact hrest

/-- The propagation of the newest variant restores the augmentation
invariant on the whole rebuilt tree whenever the two subtrees of the
modified node and the ancestor chain were consistent beforehand. -/
theorem populate_restores (path : List Frame) (l r : ITree) (b e me : Int) (c : Color)
    (hl : maxEndOk l = true) (hr : maxEndOk r = true)
    (hp : framesOk path me = true) :
    maxEndOk (populate_node_end (.node l b e me c r) path) = true := by
  induction path generalizing l r b e me c with
  | nil =>
      simp only [populate_node_end]
      split_ifs with h
      · simp only [plug, maxEndOk, Bool.and_eq_true, beq_iff_eq]
        exact ⟨⟨h.symm, hl⟩, hr⟩
      · simp only [maxEndOk, Bool.and_eq_true, beq_iff_eq]
        refine ⟨⟨?_, hl⟩, hr⟩
        exact calc_me_irrel l r b e me _ c c
  | cons f rest ih =>
      simp only [framesOk, Bool.and_eq_true, beq_iff_eq] at hp
      obtain ⟨⟨hfe, hsib⟩, hrest⟩ := hp
      simp only [populate_node_end]
      split_ifs with h
      · apply maxEndOk_plug (f :: rest) _ _ (by simp) _
        · simp only [maxEndOk, Bool.and_eq_true, beq_iff_eq]
          exact ⟨⟨h.symm, hl⟩, hr⟩
        · simp only [maxEndF, framesOk, Bool.and_eq_true, beq_iff_eq]
          exact ⟨⟨hfe, hsib⟩, hrest⟩
      · cases hpos : f.pos with
        | IS_LEFT =>
            have := ih (ITree.node l b e (calculate_node_max_end (.node l b e me c r)) c r)
              f.sib f.begink f.endk f.max_end f.color
              ?_ hsib hrest
            · simpa [plugFrame, plugFrameMe, hpos] using this
            · simp only [maxEndOk, Bool.and_eq_true, beq_iff_eq]
              exact ⟨⟨calc_me_irrel l r b e me _ c c, hl⟩, hr⟩
        | IS_RIGHT =>
            have := ih f.sib
              (ITree.node l b e (calculate_node_max_end (.node l b e me c r)) c r)
              f.begink f.endk f.max_end f.color
              hsib ?_ hrest
            · simpa [plugFrame, plugFrameMe, hpos] using this
            · simp only [maxEndOk, Bool.and_eq_true, beq_iff_eq]
              exact ⟨⟨calc_me_irrel l r b e me _ c c, hl⟩, hr⟩

/-- Stored max_end of a child as read by calculate_node_max_end, with
default d when the child is nil (the nil child is skipped, leaving the
running value). -/
def childMe (t : ITree) (d : Int) : Int :=
  match t with
  | .nil => d
  | .node _ _ _ me _ _ => me

theorem calc_eq_max (l r : ITree) (b e me : Int) (c : Color) :
    calculate_node_max_end (.node l b e me c r) =
      max e (max (childMe l e) (childMe r e)) := by
  cases l <;> cases r <;>
    simp only [calculate_node_max_end, childMe, max_def] <;>
    split_ifs <;> omega

/-- left_rotate preserves the augmentation invariant on the rotated
cluster and leaves the stored max_end at the top of the subtree
unchanged, which is why the rotations do not propagate max_end to
their ancestors (comment at urcu-rbtree.c:2475-2480). -/
theorem left_rotate_preserves (t : ITree) (h : maxEndOk t = true) :
    maxEndOk (left_rotate t) = true ∧ maxEndF (left_rotate t) = maxEndF t := by
  cases t with
  | nil => exact ⟨h, rfl⟩
  | node a xb xe xme xc y =>
      cases y with
      | nil => exact ⟨h, rfl⟩
      | node yl yb ye yme yc2 yr =>
          rw [maxEndOk_node] at h
          obtain ⟨hx, ha, hy⟩ := h
          rw [maxEndOk_node] at hy
          obtain ⟨hyme, hyl, hyr⟩ := hy
          constructor
          · simp only [left_rotate]
            rw [maxEndOk_node]
            refine ⟨calc_me_irrel _ _ _ _ _ _ _ _, ?_, hyr⟩
            rw [maxEndOk_node]
            exact ⟨calc_me_irrel _ _ _ _ _ _ _ _, ha, hyl⟩
          · simp only [left_rotate, maxEndF]
            simp only [calc_eq_max, childMe] at hx hyme ⊢
            cases a <;> cases yl <;> cases yr <;>
              simp only [childMe] at hx hyme ⊢ <;> omega

/-- right_rotate preserves the augmentation invariant on the rotated
cluster and leaves the stored max_end at the top of the subtree
unchanged. -/
theorem right_rotate_preserves (t : ITree) (h : maxEndOk t = true) :
    maxEndOk (right_rotate t) = true ∧ maxEndF (right_rotate t) = maxEndF t := by
  cases t with
  | nil => exact ⟨h, rfl⟩
  | node y xb xe xme xc a =>
      cases y with
      | nil => exact ⟨h, rfl⟩
      | node yl yb ye yme yc2 yr =>
          rw [maxEndOk_node] at h
          obtain ⟨hx, hy, ha⟩ := h
          rw [maxEndOk_node] at hy
          obtain ⟨hyme, hyl, hyr⟩ := hy
          constructor
          · simp only [right_rotate]
            rw [maxEndOk_node]
            refine ⟨calc_me_irrel _ _ _ _ _ _ _ _, hyl, ?_⟩
            rw [maxEndOk_node]
            exact ⟨calc_me_irrel _ _ _ _ _ _ _ _, hyr, ha⟩
          · simp only [right_rotate, maxEndF]
            simp only [calc_eq_max, childMe] at hx hyme ⊢
            cases a <;> cases yl <;> cases yr <;>
              simp only [childMe] at hx hyme ⊢ <;> omega

/-- Modified subtree for the failing propagation input: the parent copy
of the interval [-10,5) with the freshly inserted leaf [-5,50) wired as
its right child, stored max_end still the pre-insert value 5. -/
def focusBroken : ITree :=
  .node .nil (-10) 5 5 .red (.node .nil (-5) 50 50 .red .nil)

/-- Ancestor chain of the failing propagation input: the root interval
[0,10) with stored max_end 10, whose left child was the interval
[-10,5) with stored max_end 5 before the insertion. -/
def frameBroken : Frame :=
  { pos := .IS_LEFT, begink := 0, endk := 10, max_end := 10,
    color := .black, sib := .nil, oldChild := .node .nil (-10) 5 5 .red .nil }

/-- C2: the max_end augmentation invariant.  A freshly inserted leaf
satisfies it (rcu_rbtree_insert sets max_end to the own end,
urcu-rbtree.c:2755); the upward propagation of the newest
populate_node_end variant (urcu-rbtree.c:2354-2421), which links the
copied child before recomputing, re-establishes the invariant on the
whole tree and stops at the first ancestor whose recomputed max_end
equals its stored max_end, leaving the ancestors untouched; the
rotations re-establish it on all copied nodes without propagation.
The final conjunct exhibits the divergence of the older variant
(urcu-rbtree.c:389-457), which recomputes ancestors from the still
linked superseded child and therefore stops prematurely: on the same
input the older variant leaves the tree violating the invariant while
the newest variant restores it. -/
theorem max_end_invariant_maintained :
    (∀ b e : Int, maxEndOk (.node .nil b e e .red .nil) = true) ∧
    (∀ (path : List Frame) (l r : ITree) (b e me : Int) (c : Color),
      maxEndOk l = true → maxEndOk r = true → framesOk path me = true →
      maxEndOk (populate_node_end (.node l b e me c r) path) = true) ∧
    (∀ (path : List Frame) (l r : ITree) (b e me : Int) (c : Color),
      calculate_node_max_end (.node l b e me c r) = me →
      populate_node_end (.node l b e me c r) path = plug path (.node l b e me c r)) ∧
    (∀ t : ITree, maxEndOk t = true →
      maxEndOk (left_rotate t) = true ∧ maxEndF (left_rotate t) = maxEndF t) ∧
    (∀ t : ITree, maxEndOk t = true →
      maxEndOk (right_rotate t) = true ∧ maxEndF (right_rotate t) = maxEndF t) ∧
    (maxEndOk (populate_node_end_old focusBroken [frameBroken]) = false ∧
     maxEndOk (populate_node_end focusBroken [frameBroken]) = true) := by
  refine ⟨?_, ?_, ?_, left_rotate_preserves, right_rotate_preserves, ?_, ?_⟩
  · intro b e
    rw [maxEndOk_node]
    exact ⟨rfl, rfl, rfl⟩
  · intro path l r b e me c hl hr hp
    exact populate_restores path l r b e me c hl hr hp
  · intro path l r b e me c h
    cases path with
    | nil => simp [populate_node_end, h, plug]
    | cons f rest => simp [populate_node_end, h]
  · decide
  · decide

/-- Witness for C2: a concrete invocation of the restored propagation
with all hypotheses discharged on the failing-input tree. -/
theorem max_end_invariant_maintained_witness :
    maxEndOk (populate_node_end
      (.node .nil (-10) 5 5 .red (.node .nil (-5) 50 50 .red .nil))
      [frameBroken]) = true :=
  max_end_invariant_maintained.2.1 [frameBroken]
    .nil (.node .nil (-5) 50 50 .red .nil) (-10) 5 5 .red
    (by decide) (by decide) (by decide)

/-- Concrete steady-state tree holding intervals [0,10), [5,20) and
[30,40), spec section 8.4 scenario 3. -/
def rbExampleTree : ITree :=
  .node (.node .nil 0 10 10 .red .nil) 5 20 40 .black (.node .nil 30 40 40 .red .nil)

/-- Witness for C1: the example tree satisfies all three invariant
hypotheses, and searching point 7 succeeds. -/
theorem rcu_rbtree_search_correct_witness :
    (rcu_rbtree_search rbExampleTree 7).isSome := by
  have h := rcu_rbtree_search_correct rbExampleTree 7 (by decide) (by decide) (by decide)
  exact h.2.1 ⟨(5, 20), by decide, by decide, by decide⟩

/-! ## Remove fix-up, red-sibling case (C10)

The red-sibling branch of rcu_rbtree_remove_fixup recolours the
sibling w and the parent of x before rotating.  Only the two colour
writes of the branch are modelled; the rotation that follows is the
one modelled above. -/

structure FixupState where
  w : Color
  xp : Color
deriving DecidableEq, Repr

/-- Red-sibling branch of rcu_rbtree_remove_fixup in the current
variant (urcu-rbtree.c:894-900): w.color = COLOR_BLACK;
parent(x).color = COLOR_RED; then left_rotate. -/
def remove_fixup_case1 (s : FixupState) : FixupState :=
  { s with w := Color.black, xp := Color.red }

/-- Red-sibling branch in the earlier variants (urcu-rbtree.c:1620-1626
and the part_003 variant at lines 399-407): the first statement is
written with a double equals sign, a comparison whose value is
discarded, so the sibling colour is not written and only the parent is
recoloured before the rotation. -/
def remove_fixup_case1_old (s : FixupState) : FixupState :=
  let cmp := s.w == Color.black
  { s with xp := Color.red, w := if cmp then s.w else s.w }

/-- Red-sibling recolouring step of the documented CLRS delete fix-up
(case 1): the sibling becomes black and the parent red. -/
def clrs_delete_case1 (s : FixupState) : FixupState :=
  { s with w := Color.black, xp := Color.red }

/-- C10: in the earlier remove fix-up variants the statement written as
a comparison leaves the sibling colour unchanged, so on entry to the
branch (sibling red) the sibling stays red and the branch deviates from
the documented CLRS case-1 recolouring; the current variant performs
the assignment and matches CLRS. -/
theorem remove_fixup_red_sibling_discrepancy :
    (∀ s : FixupState, (remove_fixup_case1_old s).w = s.w) ∧
    (∀ s : FixupState, s.w = Color.red →
      (remove_fixup_case1_old s).w = Color.red ∧
      remove_fixup_case1_old s ≠ clrs_delete_case1 s) ∧
    (∀ s : FixupState, remove_fixup_case1 s = clrs_delete_case1 s) := by
  refine ⟨?_, ?_, ?_⟩
  · intro s; cases s with
    | mk w xp => cases w <;> rfl
  · intro s hw
    cases s with
    | mk w xp =>
        simp only at hw
        subst hw
        cases xp <;> exact ⟨rfl, by decide⟩
  · intro s; rfl

/-- Witness for C10 at the concrete entry state of the branch: sibling
red, parent black. -/
theorem remove_fixup_red_sibling_discrepancy_witness :
    (remove_fixup_case1_old ⟨Color.red, Color.black⟩).w = Color.red ∧
    remove_fixup_case1_old ⟨Color.red, Color.black⟩ ≠
      clrs_delete_case1 ⟨Color.red, Color.black⟩ :=
  remove_fixup_red_sibling_discrepancy.2.1 ⟨Color.red, Color.black⟩ rfl

/-! ## Judy array trie nodes (rcuja, part_010)

Child references (struct rcu_ja_node_flag pointers) are modelled as
Nat words, 0 standing for NULL.  The per-class node contents are
modelled as their logical arrays; the count byte and both parallel
arrays of a linear configuration appear explicitly. -/

inductive RcuJaTypeClass where
  | RCU_JA_LINEAR : RcuJaTypeClass
  | RCU_JA_POOL : RcuJaTypeClass
  | RCU_JA_PIGEON : RcuJaTypeClass
deriving DecidableEq, Repr

structure RcuJaType where
  type_class : RcuJaTypeClass
  min_child : Nat
  max_child : Nat
  max_linear_child : Nat
  order : Nat
  nr_pool_order : Nat
  pool_size_order : Nat
deriving DecidableEq, Repr

/-- ja_types table for 64-bit pointers, part_010:161-177 (fields not
named in the C initializer are zero). -/
def ja_types : List RcuJaType := [
  ⟨.RCU_JA_LINEAR, 1, 1, 1, 4, 0, 0⟩,
  ⟨.RCU_JA_LINEAR, 1, 3, 3, 5, 0, 0⟩,
  ⟨.RCU_JA_LINEAR, 3, 7, 7, 6, 0, 0⟩,
  ⟨.RCU_JA_LINEAR, 5, 14, 14, 7, 0, 0⟩,
  ⟨.RCU_JA_LINEAR, 10, 28, 28, 8, 0, 0⟩,
  ⟨.RCU_JA_POOL, 22, 54, 27, 9, 1, 8⟩,
  ⟨.RCU_JA_POOL, 51, 104, 26, 10, 2, 8⟩,
  ⟨.RCU_JA_PIGEON, 101, 256, 0, 11, 0, 0⟩ ]

def jaTypeZero : RcuJaType := ⟨.RCU_JA_LINEAR, 0, 0, 0, 0, 0, 0⟩

/-- Contents of a LINEAR node or of one linear sub-pool of a POOL node:
the nr_child count byte and the parallel child_value / child_ptr
arrays. -/
structure LinearConf where
  nr_child : Nat
  child_value : List Nat
  child_ptr : List Nat
deriving DecidableEq, Repr

inductive JaNode where
  | linear (conf : LinearConf) : JaNode
  | pool (pools : List LinearConf) : JaNode
  | pigeon (slots : List Nat) : JaNode
deriving DecidableEq, Repr

/-- Linear scan of the visible value bytes for digit n, returning the
index of the first match (the loop at part_010:305-308). -/
def linearScan : List Nat → Nat → Nat → Option Nat
  | [], _, _ => none
  | v :: rest, n, i => if v = n then some i else linearScan rest n (i + 1)

/-- ja_linear_node_get_nth, part_010:286-315: read the count byte,
scan value[0 .. nr_child-1] for the digit, and return the pointer slot
of the matching index, or NULL (0) on a miss. -/
def ja_linear_node_get_nth (_type : RcuJaType) (node : LinearConf) (n : Nat) : Nat :=
  match linearScan (node.child_value.take node.nr_child) n 0 with
  | none => 0
  | some i => node.child_ptr.getD i 0

/-- ja_pool_node_get_nth, part_010:317-328: select the linear sub-pool
indexed by the top bits of the digit and scan it. -/
def ja_pool_node_get_nth (type : RcuJaType) (pools : List LinearConf) (n : Nat) : Nat :=
  match pools.get? (n >>> (8 - type.nr_pool_order)) with
  | none => 0
  | some linear => ja_linear_node_get_nth type linear n

/-- ja_pigeon_node_get_nth, part_010:330-337: dereference slot n of the
dense 256-slot pointer array. -/
def ja_pigeon_node_get_nth (_type : RcuJaType) (slots : List Nat) (n : Nat) : Nat :=
  slots.getD n 0

/-- ja_node_get_nth, part_010:343-367: decode the type class of the
tagged reference and dispatch; a node whose shape does not match its
class is unreachable (the C asserts). -/
def ja_node_get_nth (type_index : Nat) (node : JaNode) (n : Nat) : Nat :=
  match (ja_types.getD type_index jaTypeZero).type_class, node with
  | .RCU_JA_LINEAR, .linear conf => ja_linear_node_get_nth (ja_types.getD type_index jaTypeZero) conf n
  | .RCU_JA_POOL, .pool pools => ja_pool_node_get_nth (ja_types.getD type_index jaTypeZero) pools n
  | .RCU_JA_PIGEON, .pigeon slots => ja_pigeon_node_get_nth (ja_types.getD type_index jaTypeZero) slots n
  | _, _ => 0

/-- An insertion returns an errno-style code together with the node
contents after the call; on every error path the source returns before
any store, so the carried contents equal the input. -/
structure SetResult (α : Type) where
  ret : Int
  node : α
deriving DecidableEq, Repr

def EEXIST : Int := 17
def ENOSPC : Int := 28
def ENOMEM : Int := 12
def EINVALC : Int := 22
def ENOENT : Int := 2

/-- ja_linear_node_set_nth, part_010:369-403: scan the visible values
for the digit (duplicate returns -EEXIST before any store), then check
the capacity of the class (-ENOSPC), else store the pointer and value
at index nr_child and only then increment the count byte. -/
def ja_linear_node_set_nth (type : RcuJaType) (node : LinearConf) (n : Nat) (child : Nat) :
    SetResult LinearConf :=
  if (linearScan (node.child_value.take node.nr_child) n 0).isSome then ⟨-EEXIST, node⟩
  else if type.max_linear_child ≤ node.nr_child then ⟨-ENOSPC, node⟩
  else ⟨0, ⟨node.nr_child + 1,
            node.child_value.set node.nr_child n,
            node.child_ptr.set node.nr_child child⟩⟩

/-- ja_pool_node_set_nth, part_010:405-417: select the sub-pool from
the top bits of the digit and insert there. -/
def ja_pool_node_set_nth (type : RcuJaType) (pools : List LinearConf) (n : Nat) (child : Nat) :
    SetResult (List LinearConf) :=
  match pools.get? (n >>> (8 - type.nr_pool_order)) with
  | none => ⟨-EINVALC, pools⟩
  | some linear =>
      let r := ja_linear_node_set_nth type linear n child
      ⟨r.ret, pools.set (n >>> (8 - type.nr_pool_order)) r.node⟩

/-- ja_pigeon_node_set_nth, part_010:419-433: a non-NULL slot returns
-EEXIST before any store, else the child is published into slot n. -/
def ja_pigeon_node_set_nth (_type : RcuJaType) (slots : List Nat) (n : Nat) (child : Nat) :
    SetResult (List Nat) :=
  if slots.getD n 0 ≠ 0 then ⟨-EEXIST, slots⟩
  else ⟨0, slots.set n child⟩

/-- _ja_node_set_nth, part_010:440-469: dispatch on the decoded type
class. -/
def ja_node_set_nth_aux (type_index : Nat) (node : JaNode) (n : Nat) (child : Nat) :
    SetResult JaNode :=
  match (ja_types.getD type_index jaTypeZero).type_class, node with
  | .RCU_JA_LINEAR, .linear conf =>
      let r := ja_linear_node_set_nth (ja_types.getD type_index jaTypeZero) conf n child
      ⟨r.ret, .linear r.node⟩
  | .RCU_JA_POOL, .pool pools =>
      let r := ja_pool_node_set_nth (ja_types.getD type_index jaTypeZero) pools n child
      ⟨r.ret, .pool r.node⟩
  | .RCU_JA_PIGEON, .pigeon slots =>
      let r := ja_pigeon_node_set_nth (ja_types.getD type_index jaTypeZero) slots n child
      ⟨r.ret, .pigeon r.node⟩
  | _, _ => ⟨-EINVALC, node⟩

/-! ### Scan lemmas -/

theorem linearScan_isSome (l : List Nat) (n : Nat) :
    ∀ i, (linearScan l n i).isSome ↔ n ∈ l := by
  induction l with
  | nil => intro i; simp [linearScan]
  | cons v rest ih =>
      intro i
      simp only [linearScan, List.mem_cons]
      split_ifs with h
      · simp [h]
      · rw [ih (i + 1)]
        constructor
        · exact Or.inr
        · rintro (h2 | h2)
          · exact absurd h2.symm h
          · exact h2

theorem linearScan_lt (l : List Nat) (n : Nat) :
    ∀ k i, linearScan l n k = some i → k ≤ i ∧ i < k + l.length := by
  induction l with
  | nil => intro k i h; simp [linearScan] at h
  | cons v rest ih =>
      intro k i h
      simp only [linearScan] at h
      split_ifs at h with hv
      · cases h
        simp only [List.length_cons]
        omega
      · have := ih (k + 1) i h
        simp only [List.length_cons]
        omega

theorem take_set_of_le {α : Type} (l : List α) (v : α) :
    ∀ n m, n ≤ m → (l.set m v).take n = l.take n := by
  induction l with
  | nil => intro n m _; rfl
  | cons x xs ih =>
      intro n m hnm
      cases n with
      | zero => rfl
      | succ n2 =>
          cases m with
          | zero => omega
          | succ m2 =>
              simp only [List.set_cons_succ, List.take_succ_cons]
              rw [ih n2 m2 (by omega)]

theorem getD_set_ne {α : Type} (l : List α) (v d : α) (m i : Nat) (h : m ≠ i) :
    (l.set m v).getD i d = l.getD i d := by
  rw [List.getD_eq_getD_get?, List.getD_eq_getD_get?, List.get?_eq_getElem?,
      List.get?_eq_getElem?, List.getElem?_set_ne h]

theorem linearScan_nodup (l : List Nat) (n : Nat) (hnd : l.Nodup) :
    ∀ i k, l.get? i = some n → linearScan l n k = some (k + i) := by
  induction l with
  | nil => intro i k h; simp at h
  | cons v rest ih =>
      intro i k h
      simp only [linearScan]
      split_ifs with hv
      · cases i with
        | zero => simp
        | succ j =>
            exfalso
            subst hv
            simp only [List.get?_cons_succ] at h
            exact (List.nodup_cons.mp hnd).1 (List.get?_mem h)
      · cases i with
        | zero =>
            simp only [List.get?_cons_zero, Option.some.injEq] at h
            exact absurd h hv
        | succ j =>
            simp only [List.get?_cons_succ] at h
            rw [ih (List.nodup_cons.mp hnd).2 j (k + 1) h]
            congr 1
            omega

/-- C8: inserting a child digit already present returns -EEXIST and
leaves the node contents unchanged (ja_linear_node_set_nth returns
before any store, part_010:388-391; ja_pigeon_node_set_nth likewise,
part_010:429-430), and -EEXIST is returned exactly when the digit is
present: among the visible values of a linear configuration, or a
non-NULL slot of a pigeon node. -/
theorem duplicate_insert_unchanged :
    (∀ (type : RcuJaType) (node : LinearConf) (n child : Nat),
      ((ja_linear_node_set_nth type node n child).ret = -EEXIST ↔
        n ∈ node.child_value.take node.nr_child) ∧
      ((ja_linear_node_set_nth type node n child).ret = -EEXIST →
        (ja_linear_node_set_nth type node n child).node = node)) ∧
    (∀ (type : RcuJaType) (slots : List Nat) (n child : Nat),
      ((ja_pigeon_node_set_nth type slots n child).ret = -EEXIST ↔
        slots.getD n 0 ≠ 0) ∧
      ((ja_pigeon_node_set_nth type slots n child).ret = -EEXIST →
        (ja_pigeon_node_set_nth type slots n child).node = slots)) := by
  constructor
  · intro type node n child
    unfold ja_linear_node_set_nth
    split_ifs with h1 h2
    · refine ⟨⟨fun _ => ?_, fun _ => rfl⟩, fun _ => rfl⟩
      rw [← linearScan_isSome (node.child_value.take node.nr_child) n 0]
      exact h1
    · refine ⟨⟨fun h => ?_, fun hm => ?_⟩, fun h => ?_⟩
      · simp [ENOSPC, EEXIST] at h
      · rw [← linearScan_isSome (node.child_value.take node.nr_child) n 0] at hm
        exact absurd hm h1
      · simp [ENOSPC, EEXIST] at h
    · refine ⟨⟨fun h => ?_, fun hm => ?_⟩, fun h => ?_⟩
      · simp [EEXIST] at h
      · rw [← linearScan_isSome (node.child_value.take node.nr_child) n 0] at hm
        exact absurd hm h1
      · simp [EEXIST] at h
  · intro type slots n child
    unfold ja_pigeon_node_set_nth
    split_ifs with h1
    · exact ⟨⟨fun _ => h1, fun _ => rfl⟩, fun _ => rfl⟩
    · refine ⟨⟨fun h => ?_, fun hm => absurd hm h1⟩, fun h => ?_⟩
      · simp [EEXIST] at h
      · simp [EEXIST] at h

/-- Witness for C8: a duplicate linear insertion of digit 5 and a
duplicate pigeon insertion into an occupied slot leave the nodes
unchanged. -/
theorem duplicate_insert_unchanged_witness :
    (ja_linear_node_set_nth (ja_types.getD 1 jaTypeZero) ⟨1, [5, 0, 0], [900, 0, 0]⟩ 5 901).node
      = ⟨1, [5, 0, 0], [900, 0, 0]⟩ ∧
    (ja_pigeon_node_set_nth jaTypeZero [7] 0 8).node = [7] :=
  ⟨(duplicate_insert_unchanged.1 (ja_types.getD 1 jaTypeZero) ⟨1, [5, 0, 0], [900, 0, 0]⟩ 5 901).2
      (by decide),
   (duplicate_insert_unchanged.2 jaTypeZero [7] 0 8).2 (by decide)⟩

/-- C6: child slot lookup.  In a linear (or pool sub-linear)
configuration only the first nr_child entries of the value array are
scanned: a digit outside them yields NULL, a visible digit yields the
pointer slot of its index (unique by the no-duplicate well-formedness
of a node); a POOL node delegates to the sub-pool selected by the top
bits of the digit; a PIGEON node returns slot n directly; and a value
or pointer stored at index nr_child before the count byte is updated
does not change any lookup result. -/
theorem child_slot_lookup (type : RcuJaType) (node : LinearConf) (n : Nat)
    (hnd : (node.child_value.take node.nr_child).Nodup) :
    (n ∉ node.child_value.take node.nr_child → ja_linear_node_get_nth type node n = 0) ∧
    (∀ i, (node.child_value.take node.nr_child).get? i = some n →
      ja_linear_node_get_nth type node n = node.child_ptr.getD i 0) ∧
    (∀ (pools : List LinearConf) (lin : LinearConf),
      pools.get? (n >>> (8 - type.nr_pool_order)) = some lin →
      ja_pool_node_get_nth type pools n = ja_linear_node_get_nth type lin n) ∧
    (∀ slots : List Nat, ja_pigeon_node_get_nth type slots n = slots.getD n 0) ∧
    (∀ v p : Nat,
      ja_linear_node_get_nth type
        ⟨node.nr_child, node.child_value.set node.nr_child v,
         node.child_ptr.set node.nr_child p⟩ n
        = ja_linear_node_get_nth type node n) := by
  refine ⟨?_, ?_, ?_, fun _ => rfl, ?_⟩
  · intro hab
    unfold ja_linear_node_get_nth
    have : ¬(linearScan (node.child_value.take node.nr_child) n 0).isSome := by
      rw [linearScan_isSome]
      exact hab
    cases h : linearScan (node.child_value.take node.nr_child) n 0 with
    | none => rfl
    | some i => rw [h] at this; simp at this
  · intro i hi
    unfold ja_linear_node_get_nth
    rw [linearScan_nodup (node.child_value.take node.nr_child) n hnd i 0 hi]
    simp
  · intro pools lin h
    unfold ja_pool_node_get_nth
    rw [h]
  · intro v p
    unfold ja_linear_node_get_nth
    simp only
    rw [take_set_of_le node.child_value v node.nr_child node.nr_child (le_refl _)]
    cases h : linearScan (node.child_value.take node.nr_child) n 0 with
    | none => rfl
    | some i =>
        have hlt := linearScan_lt (node.child_value.take node.nr_child) n 0 i h
        have hlen : (node.child_value.take node.nr_child).length =
            min node.nr_child node.child_value.length := List.length_take _ _
        exact getD_set_ne node.child_ptr p 0 node.nr_child i (by omega)

/-- Witness for C6 on a concrete 3-slot linear node holding digits 5
and 9: looking up the visible digit 9 yields its pointer slot. -/
theorem child_slot_lookup_witness :
    ja_linear_node_get_nth (ja_types.getD 1 jaTypeZero) ⟨2, [5, 9, 0], [900, 901, 0]⟩ 9 = 901 :=
  (child_slot_lookup (ja_types.getD 1 jaTypeZero) ⟨2, [5, 9, 0], [900, 901, 0]⟩ 9
      (by decide)).2.1 1 (by decide)

/-! ## Recompaction (C5) and allocation failure (C9, trie part) -/

/-- alloc_rcu_ja_node, part_010:260-263: a calloc of the node size,
i.e. a zero-filled node of the class; none models a NULL return. -/
def alloc_rcu_ja_node (type_index : Nat) (allocOk : Bool) : Option JaNode :=
  if !allocOk then none
  else
    let t := ja_types.getD type_index jaTypeZero
    some (match t.type_class with
      | .RCU_JA_LINEAR =>
          .linear ⟨0, List.replicate t.max_linear_child 0, List.replicate t.max_linear_child 0⟩
      | .RCU_JA_POOL =>
          .pool (List.replicate (2 ^ t.nr_pool_order)
            ⟨0, List.replicate t.max_linear_child 0, List.replicate t.max_linear_child 0⟩)
      | .RCU_JA_PIGEON => .pigeon (List.replicate 256 0))

/-- ja_node_recompact_add, part_010:471-516: allocate a node of the
next type up (returning -ENOMEM with the structure untouched when the
allocation fails), copy the children that the loop finds by querying
the digits 0 .. old_type.max_child - 1 of the old node, add the
triggering pair, and publish the new tagged reference over the old
one.  The result carries the published (type index, node) pair. -/
def ja_node_recompact_add (old_type_index : Nat) (old_node : JaNode)
    (n : Nat) (child : Nat) (allocOk : Bool) : SetResult (Nat × JaNode) :=
  let new_type_index := old_type_index + 1
  match alloc_rcu_ja_node new_type_index allocOk with
  | none => ⟨-ENOMEM, (old_type_index, old_node)⟩
  | some init =>
      let copied := (List.range (ja_types.getD old_type_index jaTypeZero).max_child).foldl
        (fun acc i =>
          let iter := ja_node_get_nth old_type_index old_node i
          if iter = 0 then acc
          else (ja_node_set_nth_aux new_type_index acc i iter).node) init
      ⟨0, (new_type_index, (ja_node_set_nth_aux new_type_index copied n child).node)⟩

/-- ja_node_set_nth, part_010:518-533: insert, recompacting on
-ENOSPC. -/
def ja_node_set_nth (type_index : Nat) (node : JaNode) (n : Nat) (child : Nat)
    (allocOk : Bool) : SetResult (Nat × JaNode) :=
  let r := ja_node_set_nth_aux type_index node n child
  if r.ret = -ENOSPC then ja_node_recompact_add type_index node n child allocOk
  else ⟨r.ret, (type_index, r.node)⟩

/-- A full LINEAR node of type class 0 (capacity 1) holding digit 5
with child reference 900. -/
def oldNodeC5 : JaNode := .linear ⟨1, [5], [900]⟩

/-- C5: evaluation of the recompaction at the failing input.  The old
type-0 node maps digit 5; inserting digit 2 overflows the class and
recompacts into a type-1 node; the copy loop of part_010:500-508
queries only digits 0 .. max_child(type 0) - 1 = 0 of the old node, so
the published replacement maps the triggering digit 2 but no longer
maps digit 5: the claim that every existing (digit, child) pair is
copied fails on this code. -/
theorem ja_node_recompact_add_drops_child :
    ja_node_get_nth 0 oldNodeC5 5 = 900 ∧
    (ja_node_set_nth 0 oldNodeC5 2 901 true).ret = 0 ∧
    (ja_node_set_nth 0 oldNodeC5 2 901 true).node.1 = 1 ∧
    ja_node_get_nth 1 (ja_node_set_nth 0 oldNodeC5 2 901 true).node.2 2 = 901 ∧
    ja_node_get_nth 1 (ja_node_set_nth 0 oldNodeC5 2 901 true).node.2 5 = 0 := by
  decide

/-! ## Tagged child references (C7) -/

def JA_TYPE_BITS : Nat := 3
def JA_TYPE_MAX_NR : Nat := 1 <<< JA_TYPE_BITS
def JA_TYPE_MASK : Nat := JA_TYPE_MAX_NR - 1

/-- The complement of JA_TYPE_MASK on a 64-bit unsigned long. -/
def JA_PTR_MASK : Nat := 2 ^ 64 - 1 - JA_TYPE_MASK

def NODE_INDEX_NULL : Nat := 8

/-- ja_node_flag, rcuja-internal.h:177-183 (same in part_010:236-242):
tag a node address with the type index in the low bits. -/
def ja_node_flag (node : Nat) (type : Nat) : Nat := node ||| type

/-- ja_node_ptr, rcuja-internal.h:185-189: strip the tag bits with a
bitwise AND against the pointer mask. -/
def ja_node_ptr (node : Nat) : Nat := node &&& JA_PTR_MASK

/-- ja_node_ptr as written in the early drafts, part_010:254-258 and
rcuja/rcuja.c:257-261: a bitwise OR with the pointer mask in place of
the AND. -/
def ja_node_ptr_draft (node : Nat) : Nat := node ||| JA_PTR_MASK

/-- ja_node_type, rcuja-internal.h:191-202: NULL decodes to the
distinguished null index, otherwise the low bits. -/
def ja_node_type (node : Nat) : Nat :=
  if ja_node_ptr node = 0 then NODE_INDEX_NULL
  else node &&& JA_TYPE_MASK

/-- C7: round-trip of the tagged child reference encoding for the
header version (rcuja-internal.h): for every non-null 8-byte-aligned
64-bit node address p and type index t < 8, decoding ja_node_flag p t
yields back p and t.  The final conjunct evaluates the draft decode of
part_010 and rcuja/rcuja.c, which ORs the pointer mask instead of
ANDing it, at the failing input p = 64, t = 1: it does not return the
address. -/
theorem tagged_ref_roundtrip (p t : Nat)
    (hal : p % 8 = 0) (hp : p < 2 ^ 64) (hp0 : p ≠ 0) (ht : t < 8) :
    ja_node_ptr (ja_node_flag p t) = p ∧
    ja_node_type (ja_node_flag p t) = t ∧
    ja_node_ptr_draft (ja_node_flag 64 1) ≠ 64 := by
  obtain ⟨q, hpq, hqlt⟩ : ∃ q, p = 2 ^ 3 * q + 0 ∧ q < 2 ^ 61 := by
    refine ⟨p / 8, ?_, ?_⟩ <;> omega
  subst hpq
  have ht3 : t < 2 ^ 3 := ht
  have hbit0 : (0 : Nat) < 2 ^ 3 := by norm_num
  have htbit : ∀ j, 3 ≤ j → t.testBit j = false := fun j hj =>
    Nat.testBit_lt_two_pow (lt_of_lt_of_le ht3 (Nat.pow_le_pow_right (by norm_num) hj))
  have hflag : ja_node_flag (2 ^ 3 * q + 0) t = 2 ^ 3 * q + t := by
    apply Nat.eq_of_testBit_eq
    intro j
    rw [ja_node_flag, Nat.testBit_lor, Nat.testBit_mul_pow_two_add q ht3 j,
        Nat.testBit_mul_pow_two_add q hbit0 j]
    by_cases hj : j < 3
    · simp [hj]
    · simp [hj, htbit j (by omega)]
  have hmask : JA_PTR_MASK = 2 ^ 3 * (2 ^ 61 - 1) + 0 := by
    rw [JA_PTR_MASK, JA_TYPE_MASK, JA_TYPE_MAX_NR, JA_TYPE_BITS]
    decide
  have hptr : ja_node_ptr (ja_node_flag (2 ^ 3 * q + 0) t) = 2 ^ 3 * q + 0 := by
    rw [ja_node_ptr, hflag, hmask]
    apply Nat.eq_of_testBit_eq
    intro j
    rw [Nat.testBit_land, Nat.testBit_mul_pow_two_add q ht3 j,
        Nat.testBit_mul_pow_two_add (2 ^ 61 - 1) hbit0 j,
        Nat.testBit_mul_pow_two_add q hbit0 j,
        Nat.testBit_two_pow_sub_one]
    by_cases hj : j < 3
    · simp [hj]
    · by_cases hj61 : j - 3 < 61
      · simp [hj, hj61]
      · have hqbit : q.testBit (j - 3) = false :=
          Nat.testBit_lt_two_pow
            (lt_of_lt_of_le hqlt (Nat.pow_le_pow_right (by norm_num) (by omega)))
        simp [hj, hj61, hqbit]
  refine ⟨hptr, ?_, by decide⟩
  rw [ja_node_type, hptr, if_neg hp0, hflag]
  apply Nat.eq_of_testBit_eq
  intro j
  have hmask7 : JA_TYPE_MASK = 2 ^ 3 - 1 := by decide
  rw [Nat.testBit_land, Nat.testBit_mul_pow_two_add q ht3 j, hmask7,
      Nat.testBit_two_pow_sub_one]
  by_cases hj : j < 3
  · simp [hj]
  · simp [hj, htbit j (by omega)]

/-- Witness for C7 at the concrete address 64 with type index 5. -/
theorem tagged_ref_roundtrip_witness :
    ja_node_ptr (ja_node_flag 64 5) = 64 ∧ ja_node_type (ja_node_flag 64 5) = 5 :=
  ⟨(tagged_ref_roundtrip 64 5 (by decide) (by norm_num) (by decide) (by decide)).1,
   (tagged_ref_roundtrip 64 5 (by decide) (by norm_num) (by decide) (by decide)).2.1⟩

/-! ## Range layer (rcuja-range.c = part_007)

The quiescent content of the range trie is modelled as the list of its
live segments in increasing start-key order; a segment deleted from
the trie (and marked removed) simply leaves the list.  Keys are 64-bit
naturals; priv is an opaque word (0 for NULL).  The source field end
is spelled endIncl (both bounds inclusive). -/

def UINT64_MAX : Nat := 2 ^ 64 - 1

inductive CdsJaRangeType where
  | CDS_JA_RANGE_ALLOCATED : CdsJaRangeType
  | CDS_JA_RANGE_FREE : CdsJaRangeType
  | CDS_JA_RANGE_REMOVED : CdsJaRangeType
deriving DecidableEq, Repr

/-- struct cds_ja_range, part_007:149-159. -/
structure CdsJaRange where
  start : Nat
  endIncl : Nat
  priv : Nat
  type : CdsJaRangeType
deriving DecidableEq, Repr

/-- range_create, part_007:220-238 (the allocation is modelled at the
call sites that can fail). -/
def range_create (start endIncl priv : Nat) (type : CdsJaRangeType) : CdsJaRange :=
  ⟨start, endIncl, priv, type⟩

/-- cds_ja_lookup_below_equal on the quiescent trie: the last segment
whose start key is not above the key. -/
def lookup_below_equal : List CdsJaRange → Nat → Option CdsJaRange
  | [], _ => none
  | s :: rest, key =>
      if s.start > key then none
      else match lookup_below_equal rest key with
           | some r => some r
           | none => some s

/-- cds_ja_add keyed by the segment start on the quiescent view:
insertion keeps key order, and a duplicate key goes after the existing
entries (the duplicate chain appends at the tail). -/
def trieAdd : List CdsJaRange → CdsJaRange → List CdsJaRange
  | [], r => [r]
  | s :: rest, r => if r.start < s.start then r :: s :: rest else s :: trieAdd rest r

/-- cds_ja_del of one segment on the quiescent view: remove the first
occurrence. -/
def trieDel : List CdsJaRange → CdsJaRange → List CdsJaRange
  | [], _ => []
  | s :: rest, r => if s = r then rest else s :: trieDel rest r

/-- Outcome of a range-layer update: the new quiescent state, an
errno-style error (the structure is untouched), or a goto-retry path
taken on transient states that cannot arise at quiescence. -/
inductive RangeRes where
  | ok (s : List CdsJaRange) : RangeRes
  | err (code : Int) : RangeRes
  | retry : RangeRes
deriving DecidableEq, Repr

/-- Replacement segments built by cds_ja_range_add, part_007:313-350:
at most one free left remainder, the allocated segment, and at most
one free right remainder. -/
def range_add_replacements (old : CdsJaRange) (start endIncl priv : Nat) :
    List CdsJaRange :=
  if start = old.start then
    if endIncl = old.endIncl then
      [range_create start endIncl priv .CDS_JA_RANGE_ALLOCATED]
    else
      [range_create start endIncl priv .CDS_JA_RANGE_ALLOCATED,
       range_create (endIncl + 1) old.endIncl 0 .CDS_JA_RANGE_FREE]
  else
    if endIncl = old.endIncl then
      [range_create old.start (start - 1) 0 .CDS_JA_RANGE_FREE,
       range_create start endIncl priv .CDS_JA_RANGE_ALLOCATED]
    else
      [range_create old.start (start - 1) 0 .CDS_JA_RANGE_FREE,
       range_create start endIncl priv .CDS_JA_RANGE_ALLOCATED,
       range_create (endIncl + 1) old.endIncl 0 .CDS_JA_RANGE_FREE]

/-- cds_ja_range_add, part_007:261-388: reject invalid bounds, find
the segment below-or-equal start, take the goto-retry paths on
transiently hidden or removed segments, fail with -EEXIST on an
allocated or too-short containing segment, else insert the replacement
segments and then remove the old one. -/
def cds_ja_range_add (s : List CdsJaRange) (start endIncl priv : Nat) : RangeRes :=
  if start > endIncl ∨ endIncl = UINT64_MAX then .err (-EINVALC)
  else
    match lookup_below_equal s start with
    | none => .retry
    | some old =>
        if old.endIncl < start then .retry
        else match old.type with
          | .CDS_JA_RANGE_ALLOCATED => .err (-EEXIST)
          | .CDS_JA_RANGE_REMOVED => .retry
          | .CDS_JA_RANGE_FREE =>
              if old.endIncl < endIncl then .err (-EEXIST)
              else
                .ok (trieDel
                  ((range_add_replacements old start endIncl priv).foldl trieAdd s) old)

/-- One trie operation performed by a range update, for stating in
which order the replacement segments are inserted and the old segment
removed. -/
inductive TrieOp where
  | add (r : CdsJaRange) : TrieOp
  | del (r : CdsJaRange) : TrieOp
deriving DecidableEq, Repr

/-- The trie operations issued by cds_ja_range_add, in program order
(part_007:352-377): all insertions precede the removal of the old
segment; every failing path issues none. -/
def cds_ja_range_add_ops (s : List CdsJaRange) (start endIncl priv : Nat) : List TrieOp :=
  if start > endIncl ∨ endIncl = UINT64_MAX then []
  else
    match lookup_below_equal s start with
    | none => []
    | some old =>
        if old.endIncl < start then []
        else match old.type with
          | .CDS_JA_RANGE_ALLOCATED => []
          | .CDS_JA_RANGE_REMOVED => []
          | .CDS_JA_RANGE_FREE =>
              if old.endIncl < endIncl then []
              else
                (range_add_replacements old start endIncl priv).map TrieOp.add
                  ++ [TrieOp.del old]

/-- Previous-neighbour step of cds_ja_range_del, part_007:412-429:
when the range does not start at key 0, find the segment below-or-equal
range.start - 1; a missing or non-abutting result is a goto-retry
(returned as none); the outer some carries whether a previous
neighbour exists. -/
def range_del_prev_step (s : List CdsJaRange) (range : CdsJaRange) :
    Option (Option CdsJaRange) :=
  if range.start > 0 then
    match lookup_below_equal s (range.start - 1) with
    | none => none
    | some prev_range =>
        if prev_range.endIncl ≠ range.start - 1 then none
        else some (some prev_range)
  else some none

/-- Next-neighbour step of cds_ja_range_del, part_007:434-451. -/
def range_del_next_step (s : List CdsJaRange) (range : CdsJaRange) :
    Option (Option CdsJaRange) :=
  if range.endIncl < UINT64_MAX - 1 then
    match lookup_below_equal s (range.endIncl + 1) with
    | none => none
    | some next_range =>
        if next_range.start ≠ range.endIncl + 1 then none
        else some (some next_range)
  else some none

/-- Segments locked by cds_ja_range_del, in increasing key order
(part_007:426, 431, 448). -/
def range_del_locks (prevOpt nextOpt : Option CdsJaRange) (range : CdsJaRange) :
    List CdsJaRange :=
  (match prevOpt with | some x => [x] | none => []) ++ [range] ++
  (match nextOpt with | some x => [x] | none => [])

/-- Segments merged by cds_ja_range_del: the non-allocated neighbours
and the range itself (part_007:427-428, 432, 449-450). -/
def range_del_merge (prevOpt nextOpt : Option CdsJaRange) (range : CdsJaRange) :
    List CdsJaRange :=
  (match prevOpt with
    | some x => if x.type ≠ CdsJaRangeType.CDS_JA_RANGE_ALLOCATED then [x] else []
    | none => []) ++ [range] ++
  (match nextOpt with
    | some x => if x.type ≠ CdsJaRangeType.CDS_JA_RANGE_ALLOCATED then [x] else []
    | none => [])

/-- cds_ja_range_del, part_007:390-513: locate the abutting previous
and next segments (goto-retry when they are transiently hidden or do
not abut), collect the contiguous non-allocated run around the range,
retry when a locked segment is removed, then add one free segment
covering the run before removing the merged ones. -/
def cds_ja_range_del (s : List CdsJaRange) (range : CdsJaRange) : RangeRes :=
  if range.type ≠ CdsJaRangeType.CDS_JA_RANGE_ALLOCATED then .err (-ENOENT)
  else
    match range_del_prev_step s range with
    | none => .retry
    | some prevOpt =>
        match range_del_next_step s range with
        | none => .retry
        | some nextOpt =>
            if (range_del_locks prevOpt nextOpt range).any
                (fun r => r.type == CdsJaRangeType.CDS_JA_RANGE_REMOVED) then
              .retry
            else
              let merge_ranges := range_del_merge prevOpt nextOpt range
              let newStart := (merge_ranges.headD range).start
              let newEnd := (merge_ranges.getLastD range).endIncl
              let new_range := range_create newStart newEnd 0 .CDS_JA_RANGE_FREE
              .ok (merge_ranges.foldl trieDel (trieAdd s new_range))

/-- _cds_ja_range_new, part_007:515-541: the freshly built structure
holds the single free segment 0 .. UINT64_MAX - 1. -/
def initial_range_state : List CdsJaRange :=
  [range_create 0 (UINT64_MAX - 1) 0 .CDS_JA_RANGE_FREE]

/-- cds_ja_range_validate, part_007:543-586, on the quiescent segment
sequence (the transient duplicate-chain check of lines 552-565 cannot
fire at quiescence, where keys are unique): walk the segments in key
order carrying last_end (sentinel UINT64_MAX before the first); flag
ret |= -1 when a start is not last_end + 1, and after the walk flag
ret |= 1 when the final last_end is not UINT64_MAX - 1. -/
def cds_ja_range_validate (s : List CdsJaRange) : Int :=
  let fin := s.foldl
    (fun (acc : Int × Nat) range =>
      (if acc.2 ≠ UINT64_MAX ∧ range.start ≠ acc.2 + 1 then (-1 : Int) else acc.1,
       range.endIncl))
    ((0 : Int), UINT64_MAX)
  if fin.2 ≠ UINT64_MAX - 1 then (if fin.1 = 0 then 1 else fin.1) else fin.1

/-- The segments tile the keys from expectStart up to bound - 1 in
order: each start is exactly the expected key, each segment is
non-empty and below UINT64_MAX, none is removed, and the walk ends
exactly at the bound. -/
def segsChainTo : Nat → List CdsJaRange → Nat → Bool
  | expectStart, [], bound => decide (expectStart = bound)
  | expectStart, r :: rest, bound =>
      decide (r.start = expectStart) && decide (r.start ≤ r.endIncl) &&
      decide (r.endIncl < UINT64_MAX) &&
      decide (r.type ≠ CdsJaRangeType.CDS_JA_RANGE_REMOVED) &&
      segsChainTo (r.endIncl + 1) rest bound

/-- No two adjacent segments are both free. -/
def noAdjacentFree : List CdsJaRange → Bool
  | r1 :: r2 :: rest =>
      !(r1.type == CdsJaRangeType.CDS_JA_RANGE_FREE &&
        r2.type == CdsJaRangeType.CDS_JA_RANGE_FREE) &&
      noAdjacentFree (r2 :: rest)
  | _ => true

/-- The partition invariant of spec sections 3.4, 4.4.1 and 8.1: the
live segments tile 0 .. UINT64_MAX - 1 without gaps or overlaps, none
is removed, and free segments are maximal. -/
def rangePartitionOk (s : List CdsJaRange) : Bool :=
  segsChainTo 0 s UINT64_MAX && noAdjacentFree s

/-! ### Chain, lookup and insertion lemmas for the range layer -/

theorem segsChainTo_append (a : List CdsJaRange) :
    ∀ (b : List CdsJaRange) (es m : Nat),
      segsChainTo es (a ++ b) m = true ↔
      ∃ k, segsChainTo es a k = true ∧ segsChainTo k b m = true := by
  induction a with
  | nil =>
      intro b es m
      simp only [List.nil_append, segsChainTo]
      constructor
      · intro h; exact ⟨es, by simp, h⟩
      · rintro ⟨k, hk, hb⟩
        simp only [decide_eq_true_eq] at hk
        subst hk
        exact hb
  | cons r rest ih =>
      intro b es m
      simp only [List.cons_append, List.append_eq, segsChainTo, Bool.and_eq_true]
      rw [ih b (r.endIncl + 1) m]
      constructor
      · rintro ⟨hc, k, hk, hb⟩
        exact ⟨k, ⟨hc, hk⟩, hb⟩
      · rintro ⟨k, ⟨hc, hk⟩, hb⟩
        exact ⟨hc, k, hk, hb⟩

theorem segsChainTo_le (l : List CdsJaRange) :
    ∀ es m, segsChainTo es l m = true → es ≤ m := by
  induction l with
  | nil => intro es m h; simp only [segsChainTo, decide_eq_true_eq] at h; omega
  | cons r rest ih =>
      intro es m h
      simp only [segsChainTo, Bool.and_eq_true, decide_eq_true_eq] at h
      obtain ⟨⟨⟨⟨h1, h2⟩, h3⟩, h4⟩, h5⟩ := h
      have := ih (r.endIncl + 1) m h5
      omega

theorem segsChainTo_mem (l : List CdsJaRange) :
    ∀ es m, segsChainTo es l m = true →
      ∀ x ∈ l, es ≤ x.start ∧ x.start ≤ x.endIncl ∧ x.endIncl < m ∧
        x.type ≠ CdsJaRangeType.CDS_JA_RANGE_REMOVED := by
  induction l with
  | nil => intro es m _ x hx; simp at hx
  | cons r rest ih =>
      intro es m h x hx
      simp only [segsChainTo, Bool.and_eq_true, decide_eq_true_eq] at h
      obtain ⟨⟨⟨⟨h1, h2⟩, h3⟩, h4⟩, h5⟩ := h
      have hbound : r.endIncl + 1 ≤ m := segsChainTo_le rest (r.endIncl + 1) m h5
      rcases List.mem_cons.mp hx with hx | hx
      · subst hx
        refine ⟨by omega, h2, by omega, h4⟩
      · have := ih (r.endIncl + 1) m h5 x hx
        refine ⟨by omega, this.2.1, this.2.2.1, this.2.2.2⟩

/-- Under a chain, the segment found by lookup_below_equal for any key
in range is the unique containing segment, and the list splits around
it. -/
theorem lookup_chain_containing (l : List CdsJaRange) :
    ∀ es m k, segsChainTo es l m = true → es ≤ k → k < m →
      ∃ r pre post, lookup_below_equal l k = some r ∧ l = pre ++ r :: post ∧
        r.start ≤ k ∧ k ≤ r.endIncl ∧
        segsChainTo es pre r.start = true ∧
        segsChainTo (r.endIncl + 1) post m = true := by
  induction l with
  | nil =>
      intro es m k h hk1 hk2
      simp only [segsChainTo, decide_eq_true_eq] at h
      omega
  | cons r0 rest ih =>
      intro es m k h hk1 hk2
      simp only [segsChainTo, Bool.and_eq_true, decide_eq_true_eq] at h
      obtain ⟨⟨⟨⟨h1, h2⟩, h3⟩, h4⟩, h5⟩ := h
      by_cases hcase : k ≤ r0.endIncl
      · refine ⟨r0, [], rest, ?_, by simp, by omega, hcase, ?_, h5⟩
        · simp only [lookup_below_equal]
          rw [if_neg (by omega)]
          have hnone : lookup_below_equal rest k = none := by
            cases rest with
            | nil => rfl
            | cons r2 rest2 =>
                have hmem := segsChainTo_mem (r2 :: rest2) (r0.endIncl + 1) m h5 r2
                  (by simp)
                simp only [lookup_below_equal]
                rw [if_pos (by omega)]
          rw [hnone]
        · simp only [segsChainTo, decide_eq_true_eq]
          omega
      · obtain ⟨r, pre2, post, hlook, hsplit, hrk1, hrk2, hcpre, hcpost⟩ :=
          ih (r0.endIncl + 1) m k h5 (by omega) hk2
        refine ⟨r, r0 :: pre2, post, ?_, by rw [hsplit]; rfl, hrk1, hrk2, ?_, hcpost⟩
        · simp only [lookup_below_equal]
          rw [if_neg (by omega), hlook]
        · simp only [segsChainTo, Bool.and_eq_true, decide_eq_true_eq]
          exact ⟨⟨⟨⟨h1, h2⟩, h3⟩, h4⟩, hcpre⟩

theorem trieAdd_append (pre : List CdsJaRange) :
    ∀ (rest : List CdsJaRange) (r : CdsJaRange),
      (∀ x ∈ pre, x.start ≤ r.start) →
      trieAdd (pre ++ rest) r = pre ++ trieAdd rest r := by
  induction pre with
  | nil => intro rest r _; rfl
  | cons x xs ih =>
      intro rest r h
      simp only [List.cons_append, List.append_eq, trieAdd]
      rw [if_neg (by have := h x (by simp); omega), ih rest r (fun y hy => h y (by simp [hy]))]

theorem trieAdd_front (l : List CdsJaRange) (r : CdsJaRange)
    (h : ∀ x ∈ l, r.start < x.start) : trieAdd l r = r :: l := by
  cases l with
  | nil => rfl
  | cons x xs =>
      simp only [trieAdd]
      rw [if_pos (h x (by simp))]

theorem trieAdd_mid (a b : List CdsJaRange) (r : CdsJaRange)
    (ha : ∀ x ∈ a, x.start ≤ r.start) (hb : ∀ x ∈ b, r.start < x.start) :
    trieAdd (a ++ b) r = a ++ r :: b := by
  rw [trieAdd_append a b r ha, trieAdd_front b r hb]

theorem trieDel_append (pre : List CdsJaRange) :
    ∀ (rest : List CdsJaRange) (r : CdsJaRange), r ∉ pre →
      trieDel (pre ++ rest) r = pre ++ trieDel rest r := by
  induction pre with
  | nil => intro rest r _; rfl
  | cons x xs ih =>
      intro rest r h
      simp only [List.cons_append, List.append_eq, trieDel]
      rw [if_neg (by intro he; exact h (by simp [he])),
          ih rest r (fun hm => h (by simp [hm]))]

theorem trieDel_cons_self (rest : List CdsJaRange) (r : CdsJaRange) :
    trieDel (r :: rest) r = rest := by
  simp [trieDel]

/-- Inserting an ascending run of segments, each keyed at or after
every element of the left part and strictly before every element of
the right part, appends the run between the two parts. -/
theorem foldl_trieAdd_mid (reps : List CdsJaRange) :
    ∀ (a post : List CdsJaRange),
      (∀ x ∈ a, ∀ y ∈ reps, x.start ≤ y.start) →
      (∀ x ∈ post, ∀ y ∈ reps, y.start < x.start) →
      reps.Pairwise (fun u v => u.start ≤ v.start) →
      reps.foldl trieAdd (a ++ post) = a ++ reps ++ post := by
  induction reps with
  | nil => intro a post _ _ _; simp
  | cons r rest ih =>
      intro a post ha hpost hsorted
      simp only [List.foldl]
      rw [trieAdd_mid a post r (fun x hx => ha x hx r (by simp))
            (fun x hx => hpost x hx r (by simp))]
      rw [show a ++ r :: post = (a ++ [r]) ++ post by simp]
      rw [ih (a ++ [r]) post ?_ ?_ ?_]
      · simp
      · intro x hx y hy
        rcases List.mem_append.mp hx with h | h
        · exact ha x h y (by simp [hy])
        · simp only [List.mem_singleton] at h; subst h
          exact (List.pairwise_cons.mp hsorted).1 y hy
      · intro x hx y hy
        exact hpost x hx y (by simp [hy])
      · exact (List.pairwise_cons.mp hsorted).2

/-- The start keys of the replacement segments all lie inside the old
segment. -/
theorem replacements_start_bounds (old : CdsJaRange) (st en priv : Nat)
    (h1 : old.start <= st) (h2 : st <= en) (h3 : en <= old.endIncl) :
    ∀ y ∈ range_add_replacements old st en priv,
      old.start ≤ y.start ∧ y.start ≤ old.endIncl := by
  unfold range_add_replacements
  split_ifs with hs he1 he2 <;> intro y hy <;>
    simp only [List.mem_cons, List.mem_singleton, List.not_mem_nil, or_false] at hy
  · subst hy; simp [range_create]; omega
  · rcases hy with hy | hy <;> subst hy <;> simp [range_create] <;> omega
  · rcases hy with hy | hy <;> subst hy <;> simp [range_create] <;> omega
  · rcases hy with hy | hy | hy <;> subst hy <;> simp [range_create] <;> omega

/-- The replacement segments are in ascending start-key order. -/
theorem replacements_sorted (old : CdsJaRange) (st en priv : Nat)
    (h1 : old.start <= st) (h2 : st <= en) :
    (range_add_replacements old st en priv).Pairwise
      (fun u v => u.start ≤ v.start) := by
  unfold range_add_replacements
  split_ifs with hs he1 he2 <;>
    simp [List.pairwise_cons, range_create] <;> omega

/-- Success path of cds_ja_range_add on a partitioned state: inserting
the replacement segments (each keyed inside the old segment) and then
removing the old segment rewrites exactly the slice the old segment
occupied. -/
theorem range_add_state (pre post : List CdsJaRange) (old : CdsJaRange)
    (st en priv : Nat)
    (hpre : ∀ x ∈ pre, x.start < old.start)
    (hpost : ∀ x ∈ post, old.endIncl < x.start)
    (h1 : old.start ≤ st) (h2 : st ≤ en) (h3 : en ≤ old.endIncl) :
    trieDel ((range_add_replacements old st en priv).foldl trieAdd (pre ++ old :: post)) old
      = pre ++ range_add_replacements old st en priv ++ post := by
  have holdpre : old ∉ pre := by
    intro hm
    have := hpre old hm
    omega
  have hbounds := replacements_start_bounds old st en priv h1 h2 h3
  rw [show pre ++ old :: post = (pre ++ [old]) ++ post by simp]
  rw [foldl_trieAdd_mid (range_add_replacements old st en priv) (pre ++ [old]) post
        ?_ ?_ (replacements_sorted old st en priv h1 h2)]
  · rw [show (pre ++ [old]) ++ range_add_replacements old st en priv ++ post
        = pre ++ old :: (range_add_replacements old st en priv ++ post) by simp]
    rw [trieDel_append pre _ old holdpre, trieDel_cons_self]
    simp
  · intro x hx y hy
    rcases List.mem_append.mp hx with h | h
    · have := hpre x h
      have := (hbounds y hy).1
      omega
    · simp only [List.mem_singleton] at h; subst h
      exact (hbounds y hy).1
  · intro x hx y hy
    have := hpost x hx
    have := (hbounds y hy).2
    omega

/-- The replacement segments tile exactly the keys of the old
segment. -/
theorem replacements_chain (old : CdsJaRange) (st en priv : Nat)
    (h1 : old.start ≤ st) (h2 : st ≤ en) (h3 : en ≤ old.endIncl)
    (h4 : old.endIncl < UINT64_MAX) :
    segsChainTo old.start (range_add_replacements old st en priv) (old.endIncl + 1)
      = true := by
  unfold range_add_replacements
  split_ifs with hs he1 he2 <;>
    simp [segsChainTo, range_create] <;> omega

/-- Adjacent segments are not both free. -/
def nfFree (a b : CdsJaRange) : Prop :=
  ¬(a.type = CdsJaRangeType.CDS_JA_RANGE_FREE ∧
    b.type = CdsJaRangeType.CDS_JA_RANGE_FREE)

theorem noAdjacentFree_iff_chain (l : List CdsJaRange) :
    noAdjacentFree l = true ↔ List.Chain' nfFree l := by
  induction l with
  | nil => simp [noAdjacentFree]
  | cons r1 rest ih =>
      cases rest with
      | nil => simp [noAdjacentFree]
      | cons r2 rest2 =>
          rw [List.chain'_cons, ← ih]
          constructor
          · intro h
            simp only [noAdjacentFree, Bool.and_eq_true] at h
            obtain ⟨h1, h2⟩ := h
            refine ⟨?_, h2⟩
            intro hcon
            have hb : (r1.type == CdsJaRangeType.CDS_JA_RANGE_FREE &&
                r2.type == CdsJaRangeType.CDS_JA_RANGE_FREE) = true := by
              simp [hcon.1, hcon.2]
            rw [hb] at h1
            simp at h1
          · intro h
            obtain ⟨h1, h2⟩ := h
            simp only [noAdjacentFree, Bool.and_eq_true]
            refine ⟨?_, h2⟩
            by_cases ha : r1.type = CdsJaRangeType.CDS_JA_RANGE_FREE <;>
              by_cases hb : r2.type = CdsJaRangeType.CDS_JA_RANGE_FREE <;>
              simp [nfFree, ha, hb] at h1 ⊢

theorem replacements_ne_nil (old : CdsJaRange) (st en priv : Nat) :
    range_add_replacements old st en priv ≠ [] := by
  unfold range_add_replacements
  split_ifs <;> simp

/-- No two adjacent replacement segments are both free: the allocated
segment separates the two remainders. -/
theorem replacements_nf (old : CdsJaRange) (st en priv : Nat) :
    List.Chain' nfFree (range_add_replacements old st en priv) := by
  unfold range_add_replacements
  split_ifs <;> simp [List.chain'_cons, nfFree, range_create]

/-- Left boundary of the replacements: a segment that may not sit next
to the (free) old segment may not sit next to the first replacement
either. -/
theorem replacements_head_nf (old : CdsJaRange) (st en priv : Nat) (x : CdsJaRange)
    (hold : old.type = CdsJaRangeType.CDS_JA_RANGE_FREE)
    (hx : nfFree x old) :
    ∀ y ∈ (range_add_replacements old st en priv).head?, nfFree x y := by
  unfold range_add_replacements
  have hxnf : x.type ≠ CdsJaRangeType.CDS_JA_RANGE_FREE := by
    intro hc
    exact hx ⟨hc, hold⟩
  split_ifs <;> intro y hy <;> simp only [List.head?_cons, Option.mem_def,
    Option.some.injEq] at hy <;> subst hy <;> simp [nfFree, range_create, hxnf]

/-- Right boundary of the replacements. -/
theorem replacements_last_nf (old : CdsJaRange) (st en priv : Nat) (y : CdsJaRange)
    (hold : old.type = CdsJaRangeType.CDS_JA_RANGE_FREE)
    (hy : nfFree old y) :
    ∀ x ∈ (range_add_replacements old st en priv).getLast?, nfFree x y := by
  unfold range_add_replacements
  have hynf : y.type ≠ CdsJaRangeType.CDS_JA_RANGE_FREE := by
    intro hc
    exact hy ⟨hold, hc⟩
  split_ifs <;> intro x hx <;> simp only [List.getLast?_singleton, List.getLast?_cons_cons,
    List.getLast?_cons_cons, Option.mem_def, Option.some.injEq] at hx <;> subst hx <;>
    simp [nfFree, range_create, hynf]

theorem lookup_below_equal_mem (l : List CdsJaRange) :
    ∀ k r, lookup_below_equal l k = some r → r ∈ l := by
  induction l with
  | nil => intro k r h; simp [lookup_below_equal] at h
  | cons s rest ih =>
      intro k r h
      simp only [lookup_below_equal] at h
      split_ifs at h with h1
      cases hlk : lookup_below_equal rest k with
      | none =>
          simp only [hlk, Option.some.injEq] at h
          subst h
          simp
      | some r2 =>
          simp only [hlk, Option.some.injEq] at h
          subst h
          exact List.mem_cons_of_mem s (ih k r2 hlk)

theorem lookup_append_gt (b : List CdsJaRange) (k : Nat) (hb : ∀ x ∈ b, k < x.start) :
    ∀ a, lookup_below_equal (a ++ b) k = lookup_below_equal a k := by
  intro a
  induction a with
  | nil =>
      simp only [List.nil_append]
      cases b with
      | nil => rfl
      | cons y ys =>
          simp only [lookup_below_equal]
          rw [if_pos (hb y (by simp))]
  | cons x xs ih =>
      simp only [List.cons_append, List.append_eq, lookup_below_equal]
      rw [ih]

theorem lookup_append_le (a : List CdsJaRange) (k : Nat) :
    ∀ (b : List CdsJaRange) (r : CdsJaRange), (∀ x ∈ a, ¬ x.start > k) →
      lookup_below_equal b k = some r → lookup_below_equal (a ++ b) k = some r := by
  induction a with
  | nil => intro b r _ h; simpa using h
  | cons x xs ih =>
      intro b r ha h
      simp only [List.cons_append, List.append_eq, lookup_below_equal]
      rw [if_neg (ha x (by simp)), ih b r (fun y hy => ha y (by simp [hy])) h]

theorem lookup_chain_last (pre2 : List CdsJaRange) :
    ∀ (prev : CdsJaRange) (es m : Nat), segsChainTo es (pre2 ++ [prev]) m = true →
      lookup_below_equal (pre2 ++ [prev]) (m - 1) = some prev := by
  induction pre2 with
  | nil =>
      intro prev es m h
      simp only [List.nil_append, segsChainTo, Bool.and_eq_true, decide_eq_true_eq] at h
      obtain ⟨⟨⟨⟨h1, h2⟩, h3⟩, h4⟩, h5⟩ := h
      simp only [lookup_below_equal]
      rw [if_neg (by omega)]
  | cons x xs ih =>
      intro prev es m h
      simp only [List.cons_append, segsChainTo, Bool.and_eq_true, decide_eq_true_eq] at h
      obtain ⟨⟨⟨⟨h1, h2⟩, h3⟩, h4⟩, h5⟩ := h
      have hm := segsChainTo_le (xs ++ [prev]) (x.endIncl + 1) m h5
      simp only [List.cons_append, List.append_eq, lookup_below_equal]
      rw [if_neg (by omega), ih prev (x.endIncl + 1) m h5]

/-- cds_ja_range_add preserves the partition invariant whenever it
succeeds. -/
theorem cds_ja_range_add_preserves (s : List CdsJaRange) (st en priv : Nat)
    (s2 : List CdsJaRange) (hInv : rangePartitionOk s = true)
    (hok : cds_ja_range_add s st en priv = RangeRes.ok s2) :
    rangePartitionOk s2 = true := by
  unfold rangePartitionOk at hInv
  rw [Bool.and_eq_true] at hInv
  obtain ⟨hchain, hnf⟩ := hInv
  unfold cds_ja_range_add at hok
  split_ifs at hok with hinval
  cases hlk : lookup_below_equal s st with
  | none =>
      simp only [hlk] at hok
      exact absurd hok (by simp)
  | some old =>
      simp only [hlk] at hok
      by_cases hend : old.endIncl < st
      · rw [if_pos hend] at hok
        exact absurd hok (by simp)
      rw [if_neg hend] at hok
      cases hty : old.type with
      | CDS_JA_RANGE_ALLOCATED =>
          simp only [hty] at hok
          exact absurd hok (by simp)
      | CDS_JA_RANGE_REMOVED =>
          simp only [hty] at hok
          exact absurd hok (by simp)
      | CDS_JA_RANGE_FREE =>
          simp only [hty] at hok
          by_cases hee : old.endIncl < en
          · rw [if_pos hee] at hok
            exact absurd hok (by simp)
          rw [if_neg hee] at hok
          injection hok with hs2
          subst hs2
          push_neg at hinval
          obtain ⟨hse, hemax⟩ := hinval
          have holdmem : old ∈ s := lookup_below_equal_mem s st old hlk
          have holdb := segsChainTo_mem s 0 UINT64_MAX hchain old holdmem
          obtain ⟨r, pre, post, hlook2, hsplit, hr1, hr2, hcpre, hcpost⟩ :=
            lookup_chain_containing s 0 UINT64_MAX st hchain (Nat.zero_le st) (by omega)
          rw [hlk] at hlook2
          injection hlook2 with hre
          subst hre
          have hpre : ∀ x ∈ pre, x.start < old.start := by
            intro x hx
            have := segsChainTo_mem pre 0 old.start hcpre x hx
            omega
          have hpost : ∀ x ∈ post, old.endIncl < x.start := by
            intro x hx
            have := segsChainTo_mem post (old.endIncl + 1) UINT64_MAX hcpost x hx
            omega
          rw [hsplit]
          rw [range_add_state pre post old st en priv hpre hpost hr1 (by omega) (by omega)]
          unfold rangePartitionOk
          rw [Bool.and_eq_true]
          constructor
          · rw [show (pre ++ range_add_replacements old st en priv ++ post)
                = pre ++ (range_add_replacements old st en priv ++ post) by simp]
            rw [segsChainTo_append]
            refine ⟨old.start, hcpre, ?_⟩
            rw [segsChainTo_append]
            exact ⟨old.endIncl + 1,
              replacements_chain old st en priv hr1 (by omega) (by omega) (by omega),
              hcpost⟩
          · rw [noAdjacentFree_iff_chain]
            rw [noAdjacentFree_iff_chain, hsplit] at hnf
            rw [List.chain'_append] at hnf
            obtain ⟨hnfpre, hnfrest, hnfbound⟩ := hnf
            rw [List.chain'_cons'] at hnfrest
            obtain ⟨hnfold, hnfpost⟩ := hnfrest
            rw [show (pre ++ range_add_replacements old st en priv ++ post)
                = pre ++ (range_add_replacements old st en priv ++ post) by simp]
            rw [List.chain'_append]
            refine ⟨hnfpre, ?_, ?_⟩
            · rw [List.chain'_append]
              refine ⟨replacements_nf old st en priv, hnfpost, ?_⟩
              intro x hx y hy
              exact replacements_last_nf old st en priv y hty (hnfold y hy) x hx
            · intro x hx y hy
              have hhead : (range_add_replacements old st en priv ++ post).head?
                  = (range_add_replacements old st en priv).head? := by
                cases hrep : range_add_replacements old st en priv with
                | nil => exact absurd hrep (replacements_ne_nil old st en priv)
                | cons a rest => simp
              rw [hhead] at hy
              have hxold : nfFree x old := by
                apply hnfbound x hx
                simp
              exact replacements_head_nf old st en priv x hty hxold y hy

/-- A state made of a left part, one fresh free segment and a right
part satisfies the partition invariant when the parts chain around the
free segment and neither touching neighbour is free. -/
theorem range_del_final (pre0 post0 : List CdsJaRange) (new : CdsJaRange)
    (hc0 : segsChainTo 0 pre0 new.start = true)
    (hc1 : segsChainTo (new.endIncl + 1) post0 UINT64_MAX = true)
    (hn1 : new.start ≤ new.endIncl) (hn2 : new.endIncl < UINT64_MAX)
    (hn3 : new.type = CdsJaRangeType.CDS_JA_RANGE_FREE)
    (hnfpre : List.Chain' nfFree pre0)
    (hnfpost : List.Chain' nfFree post0)
    (hbl : ∀ x ∈ pre0.getLast?, x.type ≠ CdsJaRangeType.CDS_JA_RANGE_FREE)
    (hbr : ∀ y ∈ post0.head?, y.type ≠ CdsJaRangeType.CDS_JA_RANGE_FREE) :
    rangePartitionOk (pre0 ++ new :: post0) = true := by
  unfold rangePartitionOk
  rw [Bool.and_eq_true]
  constructor
  · rw [segsChainTo_append]
    refine ⟨new.start, hc0, ?_⟩
    simp only [segsChainTo, Bool.and_eq_true, decide_eq_true_eq]
    refine ⟨⟨⟨⟨by trivial, hn1⟩, hn2⟩, ?_⟩, hc1⟩
    rw [hn3]
    intro hcon
    cases hcon
  · rw [noAdjacentFree_iff_chain, List.chain'_append]
    refine ⟨hnfpre, ?_, ?_⟩
    · rw [List.chain'_cons']
      refine ⟨?_, hnfpost⟩
      intro y hy
      intro hcon
      exact hbr y hy hcon.2
    · intro x hx y hy
      simp only [List.head?_cons, Option.mem_def, Option.some.injEq] at hy
      subst hy
      intro hcon
      exact hbl x hx hcon.1

/-! ### State surgery of cds_ja_range_del, one lemma per merge shape -/

theorem ne_of_start_lt {x y : CdsJaRange} (h : x.start < y.start) : x ≠ y := by
  intro he
  rw [he] at h
  omega

theorem ne_of_start_gt {x y : CdsJaRange} (h : y.start < x.start) : x ≠ y := by
  intro he
  rw [he] at h
  omega

theorem notmem_of_start_lt (l : List CdsJaRange) (r : CdsJaRange)
    (h : ∀ x ∈ l, x.start < r.start) : r ∉ l := by
  intro hm
  have := h r hm
  omega

/-- Merge of the previous free neighbour, the range and the next free
neighbour. -/
theorem del_state_both (pre2 post2 : List CdsJaRange) (prev range next new : CdsJaRange)
    (hpre2 : ∀ x ∈ pre2, x.start < new.start)
    (hprev : prev.start = new.start)
    (hr : new.start < range.start)
    (hnx : range.start < next.start)
    (hpost2 : ∀ x ∈ post2, new.start < x.start) :
    [prev, range, next].foldl trieDel
        (trieAdd (pre2 ++ prev :: range :: next :: post2) new)
      = pre2 ++ new :: post2 := by
  rw [show pre2 ++ prev :: range :: next :: post2
      = (pre2 ++ [prev]) ++ range :: next :: post2 by simp]
  rw [trieAdd_mid (pre2 ++ [prev]) (range :: next :: post2) new ?_ ?_]
  · simp only [List.foldl]
    rw [show (pre2 ++ [prev]) ++ new :: range :: next :: post2
        = pre2 ++ prev :: new :: range :: next :: post2 by simp]
    rw [trieDel_append pre2 _ prev (notmem_of_start_lt pre2 prev
          (by intro x hx; have := hpre2 x hx; omega)),
        trieDel_cons_self]
    rw [show pre2 ++ new :: range :: next :: post2
        = (pre2 ++ [new]) ++ range :: next :: post2 by simp]
    rw [trieDel_append (pre2 ++ [new]) _ range ?_, trieDel_cons_self]
    · rw [trieDel_append (pre2 ++ [new]) _ next ?_, trieDel_cons_self]
      · simp
      · intro hm
        rcases List.mem_append.mp hm with h | h
        · have := hpre2 next h; omega
        · simp only [List.mem_singleton] at h
          have := ne_of_start_gt (x := next) (y := new) (by omega)
          exact this h
    · intro hm
      rcases List.mem_append.mp hm with h | h
      · have := hpre2 range h; omega
      · simp only [List.mem_singleton] at h
        have := ne_of_start_gt (x := range) (y := new) (by omega)
        exact this h
  · intro x hx
    rcases List.mem_append.mp hx with h | h
    · have := hpre2 x h; omega
    · simp only [List.mem_singleton] at h; subst h; omega
  · intro x hx
    rcases List.mem_cons.mp hx with h | h
    · subst h; omega
    rcases List.mem_cons.mp h with h | h
    · subst h; omega
    · exact hpost2 x h

/-- Merge of the previous free neighbour and the range. -/
theorem del_state_prev (pre2 post : List CdsJaRange) (prev range new : CdsJaRange)
    (hpre2 : ∀ x ∈ pre2, x.start < new.start)
    (hprev : prev.start = new.start)
    (hr : new.start < range.start)
    (hpost : ∀ x ∈ post, new.start < x.start) :
    [prev, range].foldl trieDel (trieAdd (pre2 ++ prev :: range :: post) new)
      = pre2 ++ new :: post := by
  rw [show pre2 ++ prev :: range :: post = (pre2 ++ [prev]) ++ range :: post by simp]
  rw [trieAdd_mid (pre2 ++ [prev]) (range :: post) new ?_ ?_]
  · simp only [List.foldl]
    rw [show (pre2 ++ [prev]) ++ new :: range :: post
        = pre2 ++ prev :: new :: range :: post by simp]
    rw [trieDel_append pre2 _ prev (notmem_of_start_lt pre2 prev
          (by intro x hx; have := hpre2 x hx; omega)),
        trieDel_cons_self]
    rw [show pre2 ++ new :: range :: post = (pre2 ++ [new]) ++ range :: post by simp]
    rw [trieDel_append (pre2 ++ [new]) _ range ?_, trieDel_cons_self]
    · simp
    · intro hm
      rcases List.mem_append.mp hm with h | h
      · have := hpre2 range h; omega
      · simp only [List.mem_singleton] at h
        have := ne_of_start_gt (x := range) (y := new) (by omega)
        exact this h
  · intro x hx
    rcases List.mem_append.mp hx with h | h
    · have := hpre2 x h; omega
    · simp only [List.mem_singleton] at h; subst h; omega
  · intro x hx
    rcases List.mem_cons.mp hx with h | h
    · subst h; omega
    · exact hpost x h

/-- Merge of the range and the next free neighbour. -/
theorem del_state_next (pre post2 : List CdsJaRange) (range next new : CdsJaRange)
    (hpre : ∀ x ∈ pre, x.start < new.start)
    (hrs : range.start = new.start)
    (hnx : new.start < next.start)
    (hpost2 : ∀ x ∈ post2, new.start < x.start) :
    [range, next].foldl trieDel (trieAdd (pre ++ range :: next :: post2) new)
      = pre ++ new :: post2 := by
  rw [show pre ++ range :: next :: post2 = (pre ++ [range]) ++ next :: post2 by simp]
  rw [trieAdd_mid (pre ++ [range]) (next :: post2) new ?_ ?_]
  · simp only [List.foldl]
    rw [show (pre ++ [range]) ++ new :: next :: post2
        = pre ++ range :: new :: next :: post2 by simp]
    rw [trieDel_append pre _ range (notmem_of_start_lt pre range
          (by intro x hx; have := hpre x hx; omega)),
        trieDel_cons_self]
    rw [show pre ++ new :: next :: post2 = (pre ++ [new]) ++ next :: post2 by simp]
    rw [trieDel_append (pre ++ [new]) _ next ?_, trieDel_cons_self]
    · simp
    · intro hm
      rcases List.mem_append.mp hm with h | h
      · have := hpre next h; omega
      · simp only [List.mem_singleton] at h
        have := ne_of_start_gt (x := next) (y := new) (by omega)
        exact this h
  · intro x hx
    rcases List.mem_append.mp hx with h | h
    · have := hpre x h; omega
    · simp only [List.mem_singleton] at h; subst h; omega
  · intro x hx
    rcases List.mem_cons.mp hx with h | h
    · subst h; omega
    · exact hpost2 x h

/-- Merge of the range alone. -/
theorem del_state_alone (pre post : List CdsJaRange) (range new : CdsJaRange)
    (hpre : ∀ x ∈ pre, x.start < new.start)
    (hrs : range.start = new.start)
    (hpost : ∀ x ∈ post, new.start < x.start) :
    [range].foldl trieDel (trieAdd (pre ++ range :: post) new)
      = pre ++ new :: post := by
  rw [show pre ++ range :: post = (pre ++ [range]) ++ post by simp]
  rw [trieAdd_mid (pre ++ [range]) post new ?_ hpost]
  · simp only [List.foldl]
    rw [show (pre ++ [range]) ++ new :: post = pre ++ range :: new :: post by simp]
    rw [trieDel_append pre _ range (notmem_of_start_lt pre range
          (by intro x hx; have := hpre x hx; omega)),
        trieDel_cons_self]
  · intro x hx
    rcases List.mem_append.mp hx with h | h
    · have := hpre x h; omega
    · simp only [List.mem_singleton] at h; subst h; omega

/-- cds_ja_range_del preserves the partition invariant whenever it
succeeds on a segment of the current state. -/
theorem cds_ja_range_del_preserves (s : List CdsJaRange) (range : CdsJaRange)
    (s2 : List CdsJaRange) (hInv : rangePartitionOk s = true) (hmem : range ∈ s)
    (hok : cds_ja_range_del s range = RangeRes.ok s2) :
    rangePartitionOk s2 = true := by
  unfold rangePartitionOk at hInv
  rw [Bool.and_eq_true] at hInv
  obtain ⟨hchain, hnf⟩ := hInv
  obtain ⟨pre, post, hsplit⟩ := List.append_of_mem hmem
  subst hsplit
  rw [segsChainTo_append] at hchain
  obtain ⟨k, hcpre, hcrest⟩ := hchain
  simp only [segsChainTo, Bool.and_eq_true, decide_eq_true_eq] at hcrest
  obtain ⟨⟨⟨⟨hk, hre⟩, hrmax⟩, hrnotrem⟩, hcpost⟩ := hcrest
  subst hk
  rw [noAdjacentFree_iff_chain, List.chain'_append] at hnf
  obtain ⟨hnfpre, hnfrest, hnfbound⟩ := hnf
  rw [List.chain'_cons'] at hnfrest
  obtain ⟨hnfrp, hnfpost⟩ := hnfrest
  unfold cds_ja_range_del at hok
  by_cases hty : range.type = CdsJaRangeType.CDS_JA_RANGE_ALLOCATED
  case neg =>
    rw [if_pos hty] at hok
    exact absurd hok (by simp)
  rw [if_neg (by simp [hty])] at hok
  have hpostmem := segsChainTo_mem post (range.endIncl + 1) UINT64_MAX hcpost
  rcases List.eq_nil_or_concat pre with rfl | ⟨pre2, prev, rfl⟩
  · -- no previous neighbour: the range starts at key 0
    simp only [List.nil_append] at hok hnfbound ⊢
    have hst0 : range.start = 0 := by
      simp only [segsChainTo, decide_eq_true_eq] at hcpre
      omega
    have hPS : range_del_prev_step (range :: post) range = some none := by
      unfold range_del_prev_step
      rw [if_neg (by omega)]
    rw [hPS] at hok
    simp only at hok
    rcases post with _ | ⟨next, post2⟩
    · -- no next neighbour either: the range covers the whole key space
      have hemax : range.endIncl + 1 = UINT64_MAX := by
        simp only [segsChainTo, decide_eq_true_eq] at hcpost
        omega
      have hNS : range_del_next_step [range] range = some none := by
        unfold range_del_next_step
        rw [if_neg (by omega)]
      rw [hNS] at hok
      simp only at hok
      rw [if_neg (by simp [range_del_locks, hty])] at hok
      have hM : range_del_merge none none range = [range] := by
        simp [range_del_merge]
      simp only [hM, show ([range] : List CdsJaRange).headD range = range from rfl,
        show ([range] : List CdsJaRange).getLastD range = range from rfl] at hok
      injection hok with hs2
      subst hs2
      have hstate := del_state_alone [] []
        range (range_create range.start range.endIncl 0 .CDS_JA_RANGE_FREE)
        (by simp) (by simp [range_create]) (by simp)
      simp only [List.nil_append] at hstate
      rw [hstate]
      exact range_del_final [] [] _ (by simp [segsChainTo, range_create]; omega)
        (by simp [segsChainTo, range_create]; omega)
        (by simp [range_create]; omega) (by simp [range_create]; omega)
        (by simp [range_create]) (by simp) (by simp) (by simp) (by simp)
    · -- a next neighbour exists
      simp only [segsChainTo, Bool.and_eq_true, decide_eq_true_eq] at hcpost
      obtain ⟨⟨⟨⟨hn1, hn2⟩, hn3⟩, hn4⟩, hcpost2⟩ := hcpost
      have hend2 : range.endIncl < UINT64_MAX - 1 := by omega
      have hlkn : lookup_below_equal (range :: next :: post2) (range.endIncl + 1)
          = some next := by
        have h0 : lookup_below_equal (next :: post2) (range.endIncl + 1) = some next := by
          simp only [lookup_below_equal]
          rw [if_neg (by omega)]
          cases hp2 : post2 with
          | nil => rfl
          | cons y ys =>
              have := segsChainTo_mem post2 (next.endIncl + 1) UINT64_MAX hcpost2 y
                (by rw [hp2]; simp)
              simp only [lookup_below_equal]
              rw [if_pos (by omega)]
        exact lookup_append_le [range] (range.endIncl + 1) (next :: post2) next
          (by intro x hx; simp only [List.mem_singleton] at hx; subst hx; omega) h0
      have hNS : range_del_next_step (range :: next :: post2) range
          = some (some next) := by
        unfold range_del_next_step
        rw [if_pos (by omega), hlkn]
        simp only [if_neg (show ¬(next.start ≠ range.endIncl + 1) by omega)]
      rw [hNS] at hok
      simp only at hok
      by_cases hnty : next.type = CdsJaRangeType.CDS_JA_RANGE_ALLOCATED
      · -- allocated next neighbour: only the range is merged
        rw [if_neg (by simp [range_del_locks, hty, hnty])] at hok
        have hM : range_del_merge none (some next) range = [range] := by
          simp [range_del_merge, hnty]
        simp only [hM, show ([range] : List CdsJaRange).headD range = range from rfl,
          show ([range] : List CdsJaRange).getLastD range = range from rfl] at hok
        injection hok with hs2
        subst hs2
        have hstate := del_state_alone [] (next :: post2)
          range (range_create range.start range.endIncl 0 .CDS_JA_RANGE_FREE)
          (by simp) (by simp [range_create])
          (by
            intro x hx
            simp only [range_create]
            have := hpostmem x hx
            omega)
        simp only [List.nil_append] at hstate
        rw [hstate]
        refine range_del_final [] (next :: post2) _
          (by simp [segsChainTo, range_create]; omega) ?_
          (by simp [range_create]; omega) (by simp [range_create]; omega)
          (by simp [range_create]) (by simp) hnfpost (by simp) ?_
        · simp only [range_create]
          simp only [segsChainTo, Bool.and_eq_true, decide_eq_true_eq]
          exact ⟨⟨⟨⟨by omega, hn2⟩, hn3⟩, hn4⟩, hcpost2⟩
        · intro y hy
          simp only [List.head?_cons, Option.mem_def, Option.some.injEq] at hy
          subst hy
          simp [hnty]
      · -- free next neighbour: merged into the new free segment
        rw [if_neg (by
          simp only [range_del_locks]
          simp [hty, beq_eq_false_iff_ne, hrnotrem, hn4])] at hok
        have hM : range_del_merge none (some next) range = [range, next] := by
          simp [range_del_merge, hnty]
        simp only [hM, show ([range, next] : List CdsJaRange).headD range = range from rfl,
          show ([range, next] : List CdsJaRange).getLastD range = next from rfl] at hok
        injection hok with hs2
        subst hs2
        have hstate := del_state_next [] post2
          range next (range_create range.start next.endIncl 0 .CDS_JA_RANGE_FREE)
          (by simp) (by simp [range_create]) (by simp [range_create]; omega)
          (by
            intro x hx
            simp only [range_create]
            have := segsChainTo_mem post2 (next.endIncl + 1) UINT64_MAX hcpost2 x hx
            omega)
        simp only [List.nil_append] at hstate
        rw [hstate]
        have hnextfree : next.type = CdsJaRangeType.CDS_JA_RANGE_FREE := by
          cases hcase : next.type <;> simp_all
        rw [List.chain'_cons'] at hnfpost
        obtain ⟨hnfnext, hnfpost2⟩ := hnfpost
        refine range_del_final [] post2 _
          (by simp [segsChainTo, range_create]; omega) ?_
          (by simp [range_create]; omega) (by simp [range_create]; omega)
          (by simp [range_create]) (by simp) hnfpost2 (by simp) ?_
        · simp only [range_create]
          exact hcpost2
        · intro y hy hyfree
          exact hnfnext y hy ⟨hnextfree, hyfree⟩
  · -- a previous segment exists
    simp only [List.concat_eq_append] at hok hcpre hnfpre hnfbound ⊢
    rw [segsChainTo_append] at hcpre
    obtain ⟨k2, hcpre2, hcprev⟩ := hcpre
    simp only [segsChainTo, Bool.and_eq_true, decide_eq_true_eq] at hcprev
    obtain ⟨⟨⟨⟨hp1, hp2⟩, hp3⟩, hp4⟩, hp5⟩ := hcprev
    subst hp1
    -- prev.endIncl + 1 = range.start
    have hpremem2 := segsChainTo_mem pre2 0 prev.start hcpre2
    have hlkp : lookup_below_equal ((pre2 ++ [prev]) ++ range :: post)
        (range.start - 1) = some prev := by
      rw [lookup_append_gt (range :: post) (range.start - 1) ?_ (pre2 ++ [prev])]
      · have := lookup_chain_last pre2 prev 0 range.start (by
          rw [segsChainTo_append]
          exact ⟨prev.start, hcpre2, by
            simp only [segsChainTo, Bool.and_eq_true, decide_eq_true_eq]
            exact ⟨⟨⟨⟨by trivial, hp2⟩, hp3⟩, hp4⟩, hp5⟩⟩)
        exact this
      · intro x hx
        rcases List.mem_cons.mp hx with h | h
        · subst h; omega
        · have := hpostmem x h; omega
    have hPS : range_del_prev_step ((pre2 ++ [prev]) ++ range :: post) range
        = some (some prev) := by
      unfold range_del_prev_step
      rw [if_pos (by omega), hlkp]
      simp only [if_neg (show ¬(prev.endIncl ≠ range.start - 1) by omega)]
    rw [hPS] at hok
    simp only at hok
    have hprelt : ∀ x ∈ pre2 ++ [prev], x.start < range.start := by
      intro x hx
      rcases List.mem_append.mp hx with h | h
      · have := hpremem2 x h; omega
      · simp only [List.mem_singleton] at h; subst h; omega
    rcases post with _ | ⟨next, post2⟩
    · -- no next neighbour
      have hemax : range.endIncl + 1 = UINT64_MAX := by
        simp only [segsChainTo, decide_eq_true_eq] at hcpost
        omega
      have hNS : range_del_next_step ((pre2 ++ [prev]) ++ [range]) range
          = some none := by
        unfold range_del_next_step
        rw [if_neg (by omega)]
      rw [hNS] at hok
      simp only at hok
      by_cases hpty : prev.type = CdsJaRangeType.CDS_JA_RANGE_ALLOCATED
      · -- allocated previous neighbour: only the range is merged
        rw [if_neg (by simp [range_del_locks, hty, hpty])] at hok
        have hM : range_del_merge (some prev) none range = [range] := by
          simp [range_del_merge, hpty]
        simp only [hM, show ([range] : List CdsJaRange).headD range = range from rfl,
          show ([range] : List CdsJaRange).getLastD range = range from rfl] at hok
        injection hok with hs2
        subst hs2
        have hstate := del_state_alone (pre2 ++ [prev]) []
          range (range_create range.start range.endIncl 0 .CDS_JA_RANGE_FREE)
          (by
            intro x hx
            simp only [range_create]
            exact hprelt x hx)
          (by simp [range_create]) (by simp)
        rw [show (pre2 ++ [prev]) ++ range :: ([] : List CdsJaRange)
            = (pre2 ++ [prev]) ++ range :: [] from rfl] at hstate
        rw [hstate]
        refine range_del_final (pre2 ++ [prev]) [] _ ?_
          (by simp [segsChainTo, range_create]; omega)
          (by simp [range_create]; omega) (by simp [range_create]; omega)
          (by simp [range_create]) hnfpre (by simp) ?_ (by simp)
        · simp only [range_create]
          rw [segsChainTo_append]
          exact ⟨prev.start, hcpre2, by
            simp only [segsChainTo, Bool.and_eq_true, decide_eq_true_eq]
            exact ⟨⟨⟨⟨by trivial, hp2⟩, hp3⟩, hp4⟩, by omega⟩⟩
        · intro x hx
          rw [List.getLast?_concat] at hx
          simp only [Option.mem_def, Option.some.injEq] at hx
          subst hx
          simp [hpty]
      · -- free previous neighbour: merged into the new free segment
        rw [if_neg (by
          simp only [range_del_locks]
          simp [hty, beq_eq_false_iff_ne, hp4])] at hok
        have hM : range_del_merge (some prev) none range = [prev, range] := by
          simp [range_del_merge, hpty]
        simp only [hM, show ([prev, range] : List CdsJaRange).headD range = prev from rfl,
          show ([prev, range] : List CdsJaRange).getLastD range = range from rfl] at hok
        injection hok with hs2
        subst hs2
        have hstate := del_state_prev pre2 []
          prev range (range_create prev.start range.endIncl 0 .CDS_JA_RANGE_FREE)
          (by
            intro x hx
            simp only [range_create]
            have := hpremem2 x hx
            omega)
          (by simp [range_create]) (by simp [range_create]; omega) (by simp)
        rw [show (pre2 ++ [prev]) ++ range :: ([] : List CdsJaRange)
            = pre2 ++ prev :: range :: [] by simp]
        rw [hstate]
        have hprevfree : prev.type = CdsJaRangeType.CDS_JA_RANGE_FREE := by
          cases hcase : prev.type <;> simp_all
        rw [List.chain'_append] at hnfpre
        obtain ⟨hnfpre2, _, hnfpb⟩ := hnfpre
        refine range_del_final pre2 [] _
          (by simp only [range_create]; exact hcpre2)
          (by simp [segsChainTo, range_create]; omega)
          (by simp [range_create]; omega) (by simp [range_create]; omega)
          (by simp [range_create]) hnfpre2 (by simp) ?_ (by simp)
        · intro x hx hxfree
          exact hnfpb x hx prev (by simp) ⟨hxfree, hprevfree⟩
    · -- a next neighbour exists
      simp only [segsChainTo, Bool.and_eq_true, decide_eq_true_eq] at hcpost
      obtain ⟨⟨⟨⟨hn1, hn2⟩, hn3⟩, hn4⟩, hcpost2⟩ := hcpost
      have hend2 : range.endIncl < UINT64_MAX - 1 := by omega
      have hlkn : lookup_below_equal ((pre2 ++ [prev]) ++ range :: next :: post2)
          (range.endIncl + 1) = some next := by
        have h0 : lookup_below_equal (next :: post2) (range.endIncl + 1) = some next := by
          simp only [lookup_below_equal]
          rw [if_neg (by omega)]
          cases hp2c : post2 with
          | nil => rfl
          | cons y ys =>
              have := segsChainTo_mem post2 (next.endIncl + 1) UINT64_MAX hcpost2 y
                (by rw [hp2c]; simp)
              simp only [lookup_below_equal]
              rw [if_pos (by omega)]
        rw [show (pre2 ++ [prev]) ++ range :: next :: post2
            = ((pre2 ++ [prev]) ++ [range]) ++ next :: post2 by simp]
        refine lookup_append_le ((pre2 ++ [prev]) ++ [range]) (range.endIncl + 1)
          (next :: post2) next ?_ h0
        intro x hx
        rcases List.mem_append.mp hx with h | h
        · have := hprelt x h; omega
        · simp only [List.mem_singleton] at h; subst h; omega
      have hNS : range_del_next_step ((pre2 ++ [prev]) ++ range :: next :: post2) range
          = some (some next) := by
        unfold range_del_next_step
        rw [if_pos (by omega), hlkn]
        simp only [if_neg (show ¬(next.start ≠ range.endIncl + 1) by omega)]
      rw [hNS] at hok
      simp only at hok
      obtain ⟨hnfnext, hnfpost2⟩ := List.chain'_cons'.mp hnfpost
      have hpost2gt : ∀ x ∈ post2, next.endIncl < x.start := by
        intro x hx
        have := segsChainTo_mem post2 (next.endIncl + 1) UINT64_MAX hcpost2 x hx
        omega
      by_cases hpty : prev.type = CdsJaRangeType.CDS_JA_RANGE_ALLOCATED
      · by_cases hnty : next.type = CdsJaRangeType.CDS_JA_RANGE_ALLOCATED
        · -- both neighbours allocated
          rw [if_neg (by simp [range_del_locks, hty, hpty, hnty])] at hok
          have hM : range_del_merge (some prev) (some next) range = [range] := by
            simp [range_del_merge, hpty, hnty]
          simp only [hM, show ([range] : List CdsJaRange).headD range = range from rfl,
            show ([range] : List CdsJaRange).getLastD range = range from rfl] at hok
          injection hok with hs2
          subst hs2
          have hstate := del_state_alone (pre2 ++ [prev]) (next :: post2)
            range (range_create range.start range.endIncl 0 .CDS_JA_RANGE_FREE)
            (by
              intro x hx
              simp only [range_create]
              exact hprelt x hx)
            (by simp [range_create])
            (by
              intro x hx
              simp only [range_create]
              rcases List.mem_cons.mp hx with h | h
              · subst h; omega
              · have := hpost2gt x h; omega)
          rw [hstate]
          refine range_del_final (pre2 ++ [prev]) (next :: post2) _ ?_ ?_
            (by simp [range_create]; omega) (by simp [range_create]; omega)
            (by simp [range_create]) hnfpre hnfpost ?_ ?_
          · simp only [range_create]
            rw [segsChainTo_append]
            exact ⟨prev.start, hcpre2, by
              simp only [segsChainTo, Bool.and_eq_true, decide_eq_true_eq]
              exact ⟨⟨⟨⟨by trivial, hp2⟩, hp3⟩, hp4⟩, by omega⟩⟩
          · simp only [range_create]
            simp only [segsChainTo, Bool.and_eq_true, decide_eq_true_eq]
            exact ⟨⟨⟨⟨by omega, hn2⟩, hn3⟩, hn4⟩, hcpost2⟩
          · intro x hx
            rw [List.getLast?_concat] at hx
            simp only [Option.mem_def, Option.some.injEq] at hx
            subst hx
            simp [hpty]
          · intro y hy
            simp only [List.head?_cons, Option.mem_def, Option.some.injEq] at hy
            subst hy
            simp [hnty]
        · -- allocated previous, free next
          rw [if_neg (by
            simp only [range_del_locks]
            simp [hty, hpty, beq_eq_false_iff_ne, hn4])] at hok
          have hM : range_del_merge (some prev) (some next) range = [range, next] := by
            simp [range_del_merge, hpty, hnty]
          simp only [hM,
            show ([range, next] : List CdsJaRange).headD range = range from rfl,
            show ([range, next] : List CdsJaRange).getLastD range = next from rfl] at hok
          injection hok with hs2
          subst hs2
          have hstate := del_state_next (pre2 ++ [prev]) post2
            range next (range_create range.start next.endIncl 0 .CDS_JA_RANGE_FREE)
            (by
              intro x hx
              simp only [range_create]
              exact hprelt x hx)
            (by simp [range_create]) (by simp [range_create]; omega)
            (by
              intro x hx
              simp only [range_create]
              have := hpost2gt x hx
              omega)
          rw [hstate]
          have hnextfree : next.type = CdsJaRangeType.CDS_JA_RANGE_FREE := by
            cases hcase : next.type <;> simp_all
          refine range_del_final (pre2 ++ [prev]) post2 _ ?_
            (by simp only [range_create]; exact hcpost2)
            (by simp [range_create]; omega) (by simp [range_create]; omega)
            (by simp [range_create]) hnfpre hnfpost2 ?_ ?_
          · simp only [range_create]
            rw [segsChainTo_append]
            exact ⟨prev.start, hcpre2, by
              simp only [segsChainTo, Bool.and_eq_true, decide_eq_true_eq]
              exact ⟨⟨⟨⟨by trivial, hp2⟩, hp3⟩, hp4⟩, by omega⟩⟩
          · intro x hx
            rw [List.getLast?_concat] at hx
            simp only [Option.mem_def, Option.some.injEq] at hx
            subst hx
            simp [hpty]
          · intro y hy hyfree
            exact hnfnext y hy ⟨hnextfree, hyfree⟩
      · by_cases hnty : next.type = CdsJaRangeType.CDS_JA_RANGE_ALLOCATED
        · -- free previous, allocated next
          rw [if_neg (by
            simp only [range_del_locks]
            simp [hty, hnty, beq_eq_false_iff_ne, hp4])] at hok
          have hM : range_del_merge (some prev) (some next) range = [prev, range] := by
            simp [range_del_merge, hpty, hnty]
          simp only [hM,
            show ([prev, range] : List CdsJaRange).headD range = prev from rfl,
            show ([prev, range] : List CdsJaRange).getLastD range = range from rfl] at hok
          injection hok with hs2
          subst hs2
          have hstate := del_state_prev pre2 (next :: post2)
            prev range (range_create prev.start range.endIncl 0 .CDS_JA_RANGE_FREE)
            (by
              intro x hx
              simp only [range_create]
              have := hpremem2 x hx
              omega)
            (by simp [range_create]) (by simp [range_create]; omega)
            (by
              intro x hx
              simp only [range_create]
              rcases List.mem_cons.mp hx with h | h
              · subst h; omega
              · have := hpost2gt x h; omega)
          rw [show (pre2 ++ [prev]) ++ range :: next :: post2
              = pre2 ++ prev :: range :: next :: post2 by simp]
          rw [hstate]
          have hprevfree : prev.type = CdsJaRangeType.CDS_JA_RANGE_FREE := by
            cases hcase : prev.type <;> simp_all
          rw [List.chain'_append] at hnfpre
          obtain ⟨hnfpre2, _, hnfpb⟩ := hnfpre
          refine range_del_final pre2 (next :: post2) _
            (by simp only [range_create]; exact hcpre2) ?_
            (by simp [range_create]; omega) (by simp [range_create]; omega)
            (by simp [range_create]) hnfpre2 hnfpost ?_ ?_
          · simp only [range_create]
            simp only [segsChainTo, Bool.and_eq_true, decide_eq_true_eq]
            exact ⟨⟨⟨⟨by omega, hn2⟩, hn3⟩, hn4⟩, hcpost2⟩
          · intro x hx hxfree
            exact hnfpb x hx prev (by simp) ⟨hxfree, hprevfree⟩
          · intro y hy
            simp only [List.head?_cons, Option.mem_def, Option.some.injEq] at hy
            subst hy
            simp [hnty]
        · -- both neighbours free
          rw [if_neg (by
            simp only [range_del_locks]
            simp [hty, beq_eq_false_iff_ne, hp4, hn4])] at hok
          have hM : range_del_merge (some prev) (some next) range
              = [prev, range, next] := by
            simp [range_del_merge, hpty, hnty]
          simp only [hM,
            show ([prev, range, next] : List CdsJaRange).headD range = prev from rfl,
            show ([prev, range, next] : List CdsJaRange).getLastD range = next from rfl]
            at hok
          injection hok with hs2
          subst hs2
          have hstate := del_state_both pre2 post2
            prev range next (range_create prev.start next.endIncl 0 .CDS_JA_RANGE_FREE)
            (by
              intro x hx
              simp only [range_create]
              have := hpremem2 x hx
              omega)
            (by simp [range_create]) (by simp [range_create]; omega)
            (by omega)
            (by
              intro x hx
              simp only [range_create]
              have := hpost2gt x hx
              omega)
          rw [show (pre2 ++ [prev]) ++ range :: next :: post2
              = pre2 ++ prev :: range :: next :: post2 by simp]
          rw [hstate]
          have hprevfree : prev.type = CdsJaRangeType.CDS_JA_RANGE_FREE := by
            cases hcase : prev.type <;> simp_all
          have hnextfree : next.type = CdsJaRangeType.CDS_JA_RANGE_FREE := by
            cases hcase : next.type <;> simp_all
          rw [List.chain'_append] at hnfpre
          obtain ⟨hnfpre2, _, hnfpb⟩ := hnfpre
          refine range_del_final pre2 post2 _
            (by simp only [range_create]; exact hcpre2)
            (by simp only [range_create]; exact hcpost2)
            (by simp [range_create]; omega) (by simp [range_create]; omega)
            (by simp [range_create]) hnfpre2 hnfpost2 ?_ ?_
          · intro x hx hxfree
            exact hnfpb x hx prev (by simp) ⟨hxfree, hprevfree⟩
          · intro y hy hyfree
            exact hnfnext y hy ⟨hnextfree, hyfree⟩

/-! ## Operation sequences and the validate routine (C3) -/

/-- One client operation against the range layer: an add with its
bounds and private data, or a del of the i-th segment of the current
quiescent state. -/
inductive RangeOp where
  | add (st en priv : Nat) : RangeOp
  | del (i : Nat) : RangeOp
deriving DecidableEq, Repr

/-- Apply one operation at quiescence; a failing or retrying update
leaves the structure unchanged. -/
def run_range_op (s : List CdsJaRange) : RangeOp → List CdsJaRange
  | .add st en priv =>
      match cds_ja_range_add s st en priv with
      | .ok s2 => s2
      | _ => s
  | .del i =>
      match s.get? i with
      | some r =>
          match cds_ja_range_del s r with
          | .ok s2 => s2
          | _ => s
      | none => s

/-- Run a client sequence from the freshly initialized structure. -/
def run_range_ops (ops : List RangeOp) : List CdsJaRange :=
  ops.foldl run_range_op initial_range_state

theorem initial_range_ok : rangePartitionOk initial_range_state = true := by
  decide

theorem run_range_op_preserves (s : List CdsJaRange) (op : RangeOp)
    (hInv : rangePartitionOk s = true) :
    rangePartitionOk (run_range_op s op) = true := by
  cases op with
  | add st en priv =>
      cases h : cds_ja_range_add s st en priv with
      | ok s2 =>
          simp only [run_range_op, h]
          exact cds_ja_range_add_preserves s st en priv s2 hInv h
      | err c => simp only [run_range_op, h]; exact hInv
      | retry => simp only [run_range_op, h]; exact hInv
  | del i =>
      cases hg : s.get? i with
      | none => simp only [run_range_op, hg]; exact hInv
      | some r =>
          cases h : cds_ja_range_del s r with
          | ok s2 =>
              simp only [run_range_op, hg, h]
              exact cds_ja_range_del_preserves s r s2 hInv (List.get?_mem hg) h
          | err c => simp only [run_range_op, hg, h]; exact hInv
          | retry => simp only [run_range_op, hg, h]; exact hInv

theorem run_range_ops_go (ops : List RangeOp) :
    ∀ s, rangePartitionOk s = true →
      rangePartitionOk (ops.foldl run_range_op s) = true := by
  induction ops with
  | nil => intro s h; exact h
  | cons op rest ih =>
      intro s h
      exact ih (run_range_op s op) (run_range_op_preserves s op h)

/-- The fold of cds_ja_range_validate keeps ret at 0 and ends with
last_end = UINT64_MAX - 1 along any gap-free tiling. -/
theorem validate_fold (s : List CdsJaRange) :
    ∀ (acc2 : Nat), s ≠ [] →
      (∀ es, segsChainTo es s UINT64_MAX = true →
        (acc2 = UINT64_MAX ∨ acc2 + 1 = es) →
        s.foldl
          (fun (acc : Int × Nat) range =>
            (if acc.2 ≠ UINT64_MAX ∧ range.start ≠ acc.2 + 1 then (-1 : Int) else acc.1,
             range.endIncl))
          ((0 : Int), acc2)
        = ((0 : Int), UINT64_MAX - 1)) := by
  induction s with
  | nil => intro acc2 hne; exact absurd rfl hne
  | cons r rest ih =>
      intro acc2 _ es hc hacc
      simp only [segsChainTo, Bool.and_eq_true, decide_eq_true_eq] at hc
      obtain ⟨⟨⟨⟨h1, h2⟩, h3⟩, h4⟩, h5⟩ := hc
      simp only [List.foldl_cons]
      have hstep : (if acc2 ≠ UINT64_MAX ∧ r.start ≠ acc2 + 1 then (-1 : Int) else 0) = 0 := by
        rw [if_neg ?_]
        rcases hacc with h | h
        · intro hcon
          exact hcon.1 h
        · intro hcon
          exact hcon.2 (by omega)
      rw [hstep]
      cases rest with
      | nil =>
          simp only [segsChainTo, decide_eq_true_eq] at h5
          simp only [List.foldl_nil]
          have hmaxpos : 0 < UINT64_MAX := by decide
          have : r.endIncl = UINT64_MAX - 1 := by omega
          rw [this]
      | cons r2 rest2 =>
          exact ih r.endIncl (by simp) (r.endIncl + 1) h5 (Or.inr rfl)

/-- Every state satisfying the partition invariant passes
cds_ja_range_validate. -/
theorem validate_of_partitionOk (s : List CdsJaRange)
    (hInv : rangePartitionOk s = true) : cds_ja_range_validate s = 0 := by
  unfold rangePartitionOk at hInv
  rw [Bool.and_eq_true] at hInv
  obtain ⟨hchain, _⟩ := hInv
  have hne : s ≠ [] := by
    intro h
    subst h
    simp only [segsChainTo, decide_eq_true_eq] at hchain
    exact absurd hchain (by decide)
  simp only [cds_ja_range_validate]
  rw [validate_fold s UINT64_MAX hne 0 hchain (Or.inl rfl)]
  simp

/-- A gap-free tiling whose first two segments are both free: it still
passes cds_ja_range_validate, which never inspects the segment
types. -/
def badRangeState : List CdsJaRange :=
  [range_create 0 5 0 .CDS_JA_RANGE_FREE,
   range_create 6 (UINT64_MAX - 1) 0 .CDS_JA_RANGE_FREE]

/-- C3, counterexample: cds_ja_range_validate accepts a gap-free
tiling with two adjacent free segments, a state the claimed invariant
(spec 3.4: adjacent free segments are forbidden) rules out, so the
validate routine does not accept exactly the invariant-satisfying
states - it checks only the tiling, never the free-merging rule. -/
theorem range_validate_not_exact :
    cds_ja_range_validate badRangeState = 0 ∧
    noAdjacentFree badRangeState = false ∧
    rangePartitionOk badRangeState = false := by
  refine ⟨by decide, by decide, by decide⟩

/-- C3: the partition invariant - the segments tile 0 .. UINT64_MAX - 1
in key order with no gap, none is removed, and no two adjacent
segments are both free - holds of the freshly initialized structure,
is preserved by every successful cds_ja_range_add and cds_ja_range_del
(failures and retries leave the structure unchanged), hence holds
after every operation sequence run from the fresh structure; and every
invariant-satisfying state passes cds_ja_range_validate (the routine
is sound for the tiling but not exact: see range_validate_not_exact). -/
theorem range_partition_invariant :
    rangePartitionOk initial_range_state = true ∧
    (∀ (s : List CdsJaRange) (st en priv : Nat) (s2 : List CdsJaRange),
      rangePartitionOk s = true → cds_ja_range_add s st en priv = RangeRes.ok s2 →
      rangePartitionOk s2 = true) ∧
    (∀ (s : List CdsJaRange) (r : CdsJaRange) (s2 : List CdsJaRange),
      rangePartitionOk s = true → r ∈ s → cds_ja_range_del s r = RangeRes.ok s2 →
      rangePartitionOk s2 = true) ∧
    (∀ ops : List RangeOp, rangePartitionOk (run_range_ops ops) = true) ∧
    (∀ s : List CdsJaRange, rangePartitionOk s = true →
      cds_ja_range_validate s = 0) := by
  refine ⟨initial_range_ok, cds_ja_range_add_preserves, cds_ja_range_del_preserves,
    ?_, validate_of_partitionOk⟩
  intro ops
  exact run_range_ops_go ops initial_range_state initial_range_ok

/-- C3, witness: a concrete successful add on the fresh structure
yields a partitioned state. -/
theorem range_partition_invariant_witness :
    rangePartitionOk
      [range_create 0 9 0 .CDS_JA_RANGE_FREE,
       range_create 10 20 7 .CDS_JA_RANGE_ALLOCATED,
       range_create 21 (UINT64_MAX - 1) 0 .CDS_JA_RANGE_FREE] = true :=
  range_partition_invariant.2.1 initial_range_state 10 20 7
    [range_create 0 9 0 .CDS_JA_RANGE_FREE,
     range_create 10 20 7 .CDS_JA_RANGE_ALLOCATED,
     range_create 21 (UINT64_MAX - 1) 0 .CDS_JA_RANGE_FREE]
    (by decide) (by decide)

/-! ## The cds_ja_range_add contract (C4) -/

theorem range_add_einval (s : List CdsJaRange) (st en priv : Nat) :
    cds_ja_range_add s st en priv = RangeRes.err (-EINVALC) ↔
      (st > en ∨ en = UINT64_MAX) := by
  constructor
  · intro h
    by_contra hcon
    unfold cds_ja_range_add at h
    rw [if_neg hcon] at h
    cases hlk : lookup_below_equal s st with
    | none =>
        simp only [hlk] at h
        exact absurd h (by simp)
    | some old =>
        simp only [hlk] at h
        by_cases hend : old.endIncl < st
        · rw [if_pos hend] at h
          exact absurd h (by simp)
        rw [if_neg hend] at h
        cases hty : old.type with
        | CDS_JA_RANGE_ALLOCATED =>
            simp only [hty, RangeRes.err.injEq] at h
            exact absurd h (by decide)
        | CDS_JA_RANGE_REMOVED =>
            simp only [hty] at h
            exact absurd h (by simp)
        | CDS_JA_RANGE_FREE =>
            simp only [hty] at h
            by_cases hee : old.endIncl < en
            · rw [if_pos hee] at h
              simp only [RangeRes.err.injEq] at h
              exact absurd h (by decide)
            · rw [if_neg hee] at h
              exact absurd h (by simp)
  · intro h
    unfold cds_ja_range_add
    rw [if_pos h]

theorem range_add_fail_no_ops (s : List CdsJaRange) (st en priv : Nat)
    (hne : ∀ s2, cds_ja_range_add s st en priv ≠ RangeRes.ok s2) :
    cds_ja_range_add_ops s st en priv = [] := by
  unfold cds_ja_range_add at hne
  unfold cds_ja_range_add_ops
  by_cases h0 : st > en ∨ en = UINT64_MAX
  · rw [if_pos h0]
  rw [if_neg h0]
  rw [if_neg h0] at hne
  cases hlk : lookup_below_equal s st with
  | none => simp only [hlk]
  | some old =>
      simp only [hlk] at hne ⊢
      by_cases hend : old.endIncl < st
      · rw [if_pos hend]
      rw [if_neg hend] at hne ⊢
      cases hty : old.type with
      | CDS_JA_RANGE_ALLOCATED => simp only [hty]
      | CDS_JA_RANGE_REMOVED => simp only [hty]
      | CDS_JA_RANGE_FREE =>
          simp only [hty] at hne ⊢
          by_cases hee : old.endIncl < en
          · rw [if_pos hee]
          rw [if_neg hee] at hne
          exact absurd rfl (hne _)

theorem range_add_found (s : List CdsJaRange) (st en priv : Nat)
    (hInv : rangePartitionOk s = true) (hst : st ≤ UINT64_MAX)
    (hen : en ≤ UINT64_MAX) (hval : ¬(st > en ∨ en = UINT64_MAX)) :
    ∃ old pre post,
      lookup_below_equal s st = some old ∧ s = pre ++ old :: post ∧
      old.start ≤ st ∧ st ≤ old.endIncl ∧
      (cds_ja_range_add s st en priv = RangeRes.err (-EEXIST) ↔
        (old.type = CdsJaRangeType.CDS_JA_RANGE_ALLOCATED ∨ old.endIncl < en)) ∧
      (∀ s2, cds_ja_range_add s st en priv = RangeRes.ok s2 →
        old.type = CdsJaRangeType.CDS_JA_RANGE_FREE ∧ en ≤ old.endIncl ∧
        s2 = pre ++ range_add_replacements old st en priv ++ post ∧
        cds_ja_range_add_ops s st en priv =
          (range_add_replacements old st en priv).map TrieOp.add
            ++ [TrieOp.del old]) := by
  unfold rangePartitionOk at hInv
  rw [Bool.and_eq_true] at hInv
  obtain ⟨hchain, _⟩ := hInv
  push_neg at hval
  obtain ⟨hse, hemax⟩ := hval
  have hstlt : st < UINT64_MAX := by omega
  obtain ⟨old, pre, post, hlk, hsplit, hr1, hr2, hcpre, hcpost⟩ :=
    lookup_chain_containing s 0 UINT64_MAX st hchain (Nat.zero_le st) hstlt
  have holdnotrem : old.type ≠ CdsJaRangeType.CDS_JA_RANGE_REMOVED :=
    (segsChainTo_mem s 0 UINT64_MAX hchain old
      (lookup_below_equal_mem s st old hlk)).2.2.2
  refine ⟨old, pre, post, hlk, hsplit, hr1, hr2, ?_, ?_⟩
  · constructor
    · intro h
      unfold cds_ja_range_add at h
      rw [if_neg (by omega)] at h
      simp only [hlk] at h
      rw [if_neg (by omega)] at h
      cases hty : old.type with
      | CDS_JA_RANGE_ALLOCATED => exact Or.inl rfl
      | CDS_JA_RANGE_REMOVED => exact absurd hty holdnotrem
      | CDS_JA_RANGE_FREE =>
          simp only [hty] at h
          by_cases hee : old.endIncl < en
          · exact Or.inr hee
          · rw [if_neg hee] at h
            exact absurd h (by simp)
    · intro h
      unfold cds_ja_range_add
      rw [if_neg (by omega)]
      simp only [hlk]
      rw [if_neg (by omega)]
      cases hty : old.type with
      | CDS_JA_RANGE_ALLOCATED => simp only
      | CDS_JA_RANGE_REMOVED => exact absurd hty holdnotrem
      | CDS_JA_RANGE_FREE =>
          simp only
          rcases h with hcon | hee
          · rw [hty] at hcon
            exact absurd hcon (by simp)
          · rw [if_pos hee]
  · intro s2 hok
    unfold cds_ja_range_add at hok
    rw [if_neg (by omega)] at hok
    simp only [hlk] at hok
    rw [if_neg (by omega)] at hok
    cases hty : old.type with
    | CDS_JA_RANGE_ALLOCATED =>
        simp only [hty] at hok
        exact absurd hok (by simp)
    | CDS_JA_RANGE_REMOVED => exact absurd hty holdnotrem
    | CDS_JA_RANGE_FREE =>
        simp only [hty] at hok
        by_cases hee : old.endIncl < en
        · rw [if_pos hee] at hok
          exact absurd hok (by simp)
        rw [if_neg hee] at hok
        injection hok with hs2
        have hpre : ∀ x ∈ pre, x.start < old.start := by
          intro x hx
          have := segsChainTo_mem pre 0 old.start hcpre x hx
          omega
        have hpost : ∀ x ∈ post, old.endIncl < x.start := by
          intro x hx
          have := segsChainTo_mem post (old.endIncl + 1) UINT64_MAX hcpost x hx
          omega
        refine ⟨rfl, by omega, ?_, ?_⟩
        · rw [← hs2, hsplit]
          exact range_add_state pre post old st en priv hpre hpost hr1 (by omega)
            (by omega)
        · unfold cds_ja_range_add_ops
          rw [if_neg (by omega)]
          simp only [hlk]
          rw [if_neg (by omega)]
          simp only [hty]
          rw [if_neg hee]

/-- Shape of the replacement list: one to three segments tiling the
old segment, the allocated segment always among them, a free left
remainder exactly when start lies strictly inside, a free right
remainder exactly when end does. -/
theorem range_add_replacements_shape (old : CdsJaRange) (st en priv : Nat)
    (h1 : old.start ≤ st) (h2 : st ≤ en) (h3 : en ≤ old.endIncl)
    (h4 : old.endIncl < UINT64_MAX) :
    (1 ≤ (range_add_replacements old st en priv).length ∧
      (range_add_replacements old st en priv).length ≤ 3) ∧
    segsChainTo old.start (range_add_replacements old st en priv)
      (old.endIncl + 1) = true ∧
    range_create st en priv CdsJaRangeType.CDS_JA_RANGE_ALLOCATED
      ∈ range_add_replacements old st en priv ∧
    ((range_add_replacements old st en priv).head?
        = some (range_create old.start (st - 1) 0 CdsJaRangeType.CDS_JA_RANGE_FREE)
      ↔ old.start < st) ∧
    ((range_add_replacements old st en priv).getLast?
        = some (range_create (en + 1) old.endIncl 0 CdsJaRangeType.CDS_JA_RANGE_FREE)
      ↔ en < old.endIncl) := by
  refine ⟨?_, replacements_chain old st en priv h1 h2 h3 h4, ?_, ?_, ?_⟩
  · unfold range_add_replacements
    split_ifs <;> simp
  · unfold range_add_replacements
    split_ifs <;> simp
  · unfold range_add_replacements
    split_ifs with hs he1 he2 <;> simp [range_create] <;> omega
  · unfold range_add_replacements
    split_ifs with hs he1 he2 <;>
      simp [range_create, List.getLast?_singleton, List.getLast?_cons_cons] <;>
      omega

/-- C4: cds_ja_range_add fails with -EINVAL exactly when start > end
or end is UINT64_MAX; every failing path issues no trie operation (the
partition is unchanged); under the partition invariant the segment
found below-or-equal start contains start, the call fails with -EEXIST
exactly when that segment is allocated or end lies beyond its end, and
on success the containing free segment is replaced in place by the one
to three replacement segments - a free left remainder iff start >
old.start, the allocated segment carrying priv, a free right remainder
iff end < old.end - which tile the old segment, all inserted before
the old segment is removed. -/
theorem cds_ja_range_add_spec :
    (∀ (s : List CdsJaRange) (st en priv : Nat),
      cds_ja_range_add s st en priv = RangeRes.err (-EINVALC) ↔
        (st > en ∨ en = UINT64_MAX)) ∧
    (∀ (s : List CdsJaRange) (st en priv : Nat),
      (∀ s2, cds_ja_range_add s st en priv ≠ RangeRes.ok s2) →
      cds_ja_range_add_ops s st en priv = []) ∧
    (∀ (s : List CdsJaRange) (st en priv : Nat),
      rangePartitionOk s = true → st ≤ UINT64_MAX → en ≤ UINT64_MAX →
      ¬(st > en ∨ en = UINT64_MAX) →
      ∃ old pre post,
        lookup_below_equal s st = some old ∧ s = pre ++ old :: post ∧
        old.start ≤ st ∧ st ≤ old.endIncl ∧
        (cds_ja_range_add s st en priv = RangeRes.err (-EEXIST) ↔
          (old.type = CdsJaRangeType.CDS_JA_RANGE_ALLOCATED ∨ old.endIncl < en)) ∧
        (∀ s2, cds_ja_range_add s st en priv = RangeRes.ok s2 →
          old.type = CdsJaRangeType.CDS_JA_RANGE_FREE ∧ en ≤ old.endIncl ∧
          s2 = pre ++ range_add_replacements old st en priv ++ post ∧
          cds_ja_range_add_ops s st en priv =
            (range_add_replacements old st en priv).map TrieOp.add
              ++ [TrieOp.del old])) ∧
    (∀ (old : CdsJaRange) (st en priv : Nat),
      old.start ≤ st → st ≤ en → en ≤ old.endIncl → old.endIncl < UINT64_MAX →
      (1 ≤ (range_add_replacements old st en priv).length ∧
        (range_add_replacements old st en priv).length ≤ 3) ∧
      segsChainTo old.start (range_add_replacements old st en priv)
        (old.endIncl + 1) = true ∧
      range_create st en priv CdsJaRangeType.CDS_JA_RANGE_ALLOCATED
        ∈ range_add_replacements old st en priv ∧
      ((range_add_replacements old st en priv).head?
          = some (range_create old.start (st - 1) 0 CdsJaRangeType.CDS_JA_RANGE_FREE)
        ↔ old.start < st) ∧
      ((range_add_replacements old st en priv).getLast?
          = some (range_create (en + 1) old.endIncl 0 CdsJaRangeType.CDS_JA_RANGE_FREE)
        ↔ en < old.endIncl)) :=
  ⟨range_add_einval, range_add_fail_no_ops, range_add_found,
    range_add_replacements_shape⟩

/-- C4, witness: the contract at a concrete add on the fresh
structure. -/
theorem cds_ja_range_add_spec_witness :
    ∃ old pre post,
      lookup_below_equal initial_range_state 10 = some old ∧
      initial_range_state = pre ++ old :: post ∧
      old.start ≤ 10 ∧ 10 ≤ old.endIncl ∧
      (cds_ja_range_add initial_range_state 10 20 7 = RangeRes.err (-EEXIST) ↔
        (old.type = CdsJaRangeType.CDS_JA_RANGE_ALLOCATED ∨ old.endIncl < 20)) ∧
      (∀ s2, cds_ja_range_add initial_range_state 10 20 7 = RangeRes.ok s2 →
        old.type = CdsJaRangeType.CDS_JA_RANGE_FREE ∧ 20 ≤ old.endIncl ∧
        s2 = pre ++ range_add_replacements old 10 20 7 ++ post ∧
        cds_ja_range_add_ops initial_range_state 10 20 7 =
          (range_add_replacements old 10 20 7).map TrieOp.add
            ++ [TrieOp.del old]) :=
  cds_ja_range_add_spec.2.2.1 initial_range_state 10 20 7 (by decide) (by decide)
    (by decide) (by decide)

/-! ## Allocation failure on the insert paths (C9) -/

/-- dup_decay_node, urcu-rbtree.c:141-156: a nil node is returned as
is; otherwise the node is copied into rbtree->rballoc() by memcpy with
no check of the allocation result, so a NULL return from the allocator
(alloc = none) is a crash - modelled as none - and never an error
code. -/
def dup_decay_node (alloc : Option Unit) (x : ITree) : Option ITree :=
  match x with
  | .nil => some .nil
  | .node l b e m c r =>
      match alloc with
      | none => none
      | some _ => some (.node l b e m c r)

/-- cds_ja_range_add with the range_create allocations made explicit
(part_007:306-361): range_create returns NULL when its calloc fails
(part_007:229-231), and cds_ja_range_add stores the results in
ranges[] and then locks and inserts them without any NULL check, so a
failed allocation on the success path is a crash - modelled as none -
and never an -ENOMEM return.  allocOk tells whether every allocation
succeeds. -/
def cds_ja_range_add_alloc (allocOk : Bool) (s : List CdsJaRange)
    (start endIncl priv : Nat) : Option RangeRes :=
  if start > endIncl ∨ endIncl = UINT64_MAX then some (.err (-EINVALC))
  else
    match lookup_below_equal s start with
    | none => some .retry
    | some old =>
        if old.endIncl < start then some .retry
        else match old.type with
          | .CDS_JA_RANGE_ALLOCATED => some (.err (-EEXIST))
          | .CDS_JA_RANGE_REMOVED => some .retry
          | .CDS_JA_RANGE_FREE =>
              if old.endIncl < endIncl then some (.err (-EEXIST))
              else if allocOk then
                some (.ok (trieDel
                  ((range_add_replacements old start endIncl priv).foldl trieAdd s)
                  old))
              else none

/-- C9: of the three insert-family allocation sites, only the trie
recompaction handles a NULL allocator result: ja_node_recompact_add
returns -ENOMEM with the structure untouched for every input.  The
red-black tree copy-on-update helper dup_decay_node uses the
allocation with no check on every non-nil node, and cds_ja_range_add
on its success path uses the segments built by range_create with no
check, so both crash (none) instead of returning an out-of-memory
indication: the claim fails on this code. -/
theorem allocation_failure_handling :
    (∀ (i : Nat) (node : JaNode) (n child : Nat),
      ja_node_recompact_add i node n child false
        = ⟨-ENOMEM, (i, node)⟩) ∧
    (∀ (l : ITree) (b e m : Int) (c : Color) (r : ITree),
      dup_decay_node none (.node l b e m c r) = none) ∧
    (dup_decay_node none (.node .nil 0 10 10 .black .nil)).isSome = false ∧
    cds_ja_range_add_alloc false initial_range_state 10 20 7 = none ∧
    (cds_ja_range_add_alloc false initial_range_state 10 20 7).isSome = false ∧
    cds_ja_range_add_alloc true initial_range_state 10 20 7
      = some (cds_ja_range_add initial_range_state 10 20 7) := by
  refine ⟨?_, ?_, by decide, by decide, by decide, by decide⟩
  · intro i node n child
    rfl
  · intro l b e m c r
    rfl

end Urcu
